import Mathlib

/-!
Shallow embedding of the `trx` transaction engine.

The embedding follows the Rust sources:
* `src/transaction.rs` — `TransactionType`, `Transaction`, `Transaction::transition`;
* `src/client.rs` — `Client` and the per-account state machine
  (`publish_transaction`, `deposit`, `withdraw`, `dispute`, `resolve`, `chargeback`);
* `src/clients/synchronous.rs`, `src/clients/stream_like.rs`,
  `src/clients/actor_like.rs` — the three engine flavours;
* `src/amount.rs` — the `Amount` wrapper and its `Deserialize` implementation
  (built on the external `rust_decimal` crate, modelled here from its
  documented behaviour).

Monetary values: `Amount` wraps `rust_decimal::Decimal`, a fixed-point decimal.
Every `Amount` that enters the system is rounded to 4 fractional digits at
deserialization, and `+`/`-` on scale-4 values stay at scale 4 (`Decimal`
equality compares numeric values, not representations).  We therefore model an
amount as an unbounded `Int` counting units of 10⁻⁴ (`Decimal`'s 96-bit
overflow is "undefined input" per the design and is not modelled).

The Rust `FnvHashMap<u32, Option<Transaction>>` transaction log is modelled as
an association list kept sorted by strictly increasing key — a canonical form
of a finite map, so that two equal maps are definitionally equal lists.
-/

namespace Trx

/-- `TransactionType` from `src/transaction.rs` (the CSV `type` tag). -/
inductive TransactionType where
  | deposit
  | withdrawal
  | dispute
  | resolve
  | chargeback
deriving DecidableEq, Repr

/-- `Transaction` from `src/transaction.rs`: the current state of a recorded
transaction.  Amounts are scale-4 integers (see the file comment). -/
inductive Transaction where
  | deposit (amount : Int)
  | withdrawal (amount : Int)
  | dispute (amount : Int)
  | resolve (amount : Int)
  | chargeback (amount : Int)
deriving DecidableEq, Repr

/-- The amount carried by a `Transaction` record. -/
def Transaction.amount : Transaction → Int
  | .deposit a => a
  | .withdrawal a => a
  | .dispute a => a
  | .resolve a => a
  | .chargeback a => a

/-- The errors raised in `src/client.rs` and `src/transaction.rs`.  The Rust
code uses `eyre!` string errors; each constructor corresponds to one `eyre!`
site and its doc comment quotes the message literal. -/
inductive PubErr where
  /-- "unable to carry out transaction when the account is frozen" -/
  | frozenAccount
  /-- "Invalid State Transition attempt. Attempted to transition from [..] -> [..]"
    (from `Transaction::transition`). -/
  | invalidTransition (lhs : Transaction) (rhs : TransactionType)
  /-- "attempted to process transaction id: .. which has already been processed" -/
  | alreadyProcessed (txId : Nat)
  /-- "we have already processed transaction id .." (from `deposit`/`withdraw`). -/
  | duplicateTransaction (txId : Nat)
  /-- "unable to withdraw as the account does not have enough available funds" -/
  | insufficientFunds
  /-- "unable to process transition type .. when no amount is provided" -/
  | missingAmount (ty : TransactionType)
  /-- "Unable to process transaction type .. as transaction id: .. does not exist for client .." -/
  | unknownTransaction (ty : TransactionType) (txId : Nat) (clientId : Nat)
  /-- "an unexpected error occured, it should not be possible to make this transition" -/
  | unexpectedTransition
deriving DecidableEq, Repr

/-- `src/clients/synchronous.rs` tests `e.to_string().starts_with("[FROZEN_ACCOUNT]")`.
None of the `eyre!` message literals in the crate (quoted on the `PubErr`
constructors above) begins with that tag, so the predicate is `false` on every
error that can reach the check. -/
def PubErr.hasFrozenAccountTag : PubErr → Bool := fun _ => false

/-- `Transaction::transition` from `src/transaction.rs`: the only legal
transitions are Deposit→Dispute, Dispute→Resolve and Dispute→Chargeback. -/
def Transaction.transition (self : Transaction) (target : TransactionType) :
    Except PubErr Transaction :=
  match self, target with
  | .deposit amount, .dispute => .ok (.dispute amount)
  | .dispute amount, .resolve => .ok (.resolve amount)
  | .dispute amount, .chargeback => .ok (.chargeback amount)
  | lhs, rhs => .error (.invalidTransition lhs rhs)

/-- `AccountStatus` from `src/client.rs`. -/
inductive AccountStatus where
  | active
  | frozen
deriving DecidableEq, Repr

/-! ### The transaction log

`FnvHashMap<u32, Option<Transaction>>` as a sorted association list
(canonical finite map).  A missing key means the tx id was never seen; a
present key with value `none` is the terminal sentinel; a present key with
`some record` is a live Deposit/Dispute record. -/

/-- One log slot: `Option<Transaction>` in the Rust map. -/
abbrev TxSlot := Option Transaction

/-- The transaction log: association list from tx id to slot, kept sorted by
strictly increasing key. -/
abbrev TxLog := List (Nat × TxSlot)

/-- Canonical-form invariant: keys strictly increase. -/
def logSorted (l : TxLog) : Prop := l.Pairwise (fun p q => p.1 < q.1)

instance (l : TxLog) : Decidable (logSorted l) := by
  unfold logSorted; infer_instance

/-- `HashMap` lookup. -/
def logLookup (k : Nat) (l : TxLog) : Option TxSlot :=
  (l.find? (fun p => p.1 = k)).map (fun p => p.2)

/-- `HashMap::remove` (the value removed is read off with `logLookup`). -/
def logErase (k : Nat) (l : TxLog) : TxLog :=
  l.filter (fun p => p.1 ≠ k)

/-- `HashMap::insert`, keeping the list sorted (replaces an existing key). -/
def logInsert (k : Nat) (v : TxSlot) : TxLog → TxLog
  | [] => [(k, v)]
  | (k', v') :: t =>
    if k < k' then (k, v) :: (k', v') :: t
    else if k = k' then (k, v) :: t
    else (k', v') :: logInsert k v t

/-! ### The client account (`src/client.rs`) -/

/-- `Client` from `src/client.rs`. -/
structure Client where
  id : Nat
  status : AccountStatus
  transactionLog : TxLog
  held : Int
  available : Int
deriving DecidableEq, Repr

/-- `Client::new`. -/
def Client.new (clientId : Nat) : Client :=
  { id := clientId, status := .active, transactionLog := [], available := 0, held := 0 }

/-- `Client::is_locked`. -/
def Client.isLocked (c : Client) : Bool :=
  match c.status with
  | .frozen => true
  | .active => false

/-- `Client::total_funds` computes `available + held` (before the conversion
to `f32` for serialization, which is outside this model). -/
def Client.totalFunds (c : Client) : Int := c.available + c.held

/-- The result of `publish_transaction`: `Result<()>` paired with the
post-call state of the mutated `Client`. -/
abbrev PubOut := Except PubErr Unit × Client

/-- `Client::deposit`: error if the id is occupied, else record the deposit
and credit `available`. -/
def Client.deposit (c : Client) (transactionId : Nat) (amount : Int) : PubOut :=
  match logLookup transactionId c.transactionLog with
  | some _ => (.error (.duplicateTransaction transactionId), c)
  | none =>
    (.ok (),
     { c with
        transactionLog :=
          logInsert transactionId (some (Transaction.deposit amount)) c.transactionLog,
        available := c.available + amount })

/-- `Client::withdraw`: error if the id is occupied; if `available ≥ amount`
debit and insert the terminal sentinel, else error without recording. -/
def Client.withdraw (c : Client) (transactionId : Nat) (amount : Int) : PubOut :=
  match logLookup transactionId c.transactionLog with
  | some _ => (.error (.duplicateTransaction transactionId), c)
  | none =>
    if amount ≤ c.available then
      (.ok (),
       { c with
          available := c.available - amount,
          transactionLog := logInsert transactionId none c.transactionLog })
    else
      (.error .insufficientFunds, c)

/-- `Client::dispute`: move the amount from `available` to `held` and store
the Dispute record. -/
def Client.dispute (c : Client) (transactionId : Nat) (amount : Int) : PubOut :=
  (.ok (),
   { c with
      available := c.available - amount,
      held := c.held + amount,
      transactionLog :=
        logInsert transactionId (some (Transaction.dispute amount)) c.transactionLog })

/-- `Client::resolve`: move the amount back to `available` and leave the
terminal sentinel. -/
def Client.resolve (c : Client) (transactionId : Nat) (amount : Int) : PubOut :=
  (.ok (),
   { c with
      held := c.held - amount,
      available := c.available + amount,
      transactionLog := logInsert transactionId none c.transactionLog })

/-- `Client::chargeback`: debit `held`, freeze the account and clear the
whole log.  Note: it returns `Ok(())`. -/
def Client.chargeback (c : Client) (amount : Int) : PubOut :=
  (.ok (),
   { c with
      held := c.held - amount,
      status := .frozen,
      transactionLog := [] })

/-- `Client::publish_transaction` from `src/client.rs`.

The Rust body first rejects frozen accounts, then `remove`s the id from the
log: a live record is driven through `Transaction::transition` (and
re-inserted unchanged on an illegal transition), the terminal sentinel is
re-inserted and reported, and a brand-new id dispatches on the event type. -/
def Client.publishTransaction (c : Client) (transactionId : Nat)
    (transactionType : TransactionType) (amount : Option Int) : PubOut :=
  if c.status = .frozen then
    (.error .frozenAccount, c)
  else
    match logLookup transactionId c.transactionLog with
    | some (some trx) =>
      let removed : Client :=
        { c with transactionLog := logErase transactionId c.transactionLog }
      match trx.transition transactionType with
      | .ok (Transaction.dispute amt) => removed.dispute transactionId amt
      | .ok (Transaction.resolve amt) => removed.resolve transactionId amt
      | .ok (Transaction.chargeback amt) => removed.chargeback amt
      | .ok _ => (.error .unexpectedTransition, removed)
      | .error e =>
        (.error e,
         { removed with
            transactionLog :=
              logInsert transactionId (some trx) removed.transactionLog })
    | some none =>
      (.error (.alreadyProcessed transactionId),
       { c with
          transactionLog :=
            logInsert transactionId none (logErase transactionId c.transactionLog) })
    | none =>
      match transactionType, amount with
      | .deposit, some a => c.deposit transactionId a
      | .withdrawal, some a => c.withdraw transactionId a
      | .deposit, none => (.error (.missingAmount transactionType), c)
      | .withdrawal, none => (.error (.missingAmount transactionType), c)
      | _, _ => (.error (.unknownTransaction transactionType transactionId c.id), c)

/-- One event addressed to a single client's account: the arguments of a
`publish_transaction` call. -/
structure ClientEvent where
  txId : Nat
  ty : TransactionType
  amount : Option Int
deriving DecidableEq, Repr

/-- Apply a sequence of events to an account, one `publish_transaction` call
per event (results are not consulted: errors leave the state to carry on). -/
def applyEvents (c : Client) : List ClientEvent → Client
  | [] => c
  | e :: rest => applyEvents (c.publishTransaction e.txId e.ty e.amount).2 rest

/-! ### Acceptance-indexed sums over an event trace

`pubOk` reads off whether a `publish_transaction` call returned `Ok`.  The
three sums below walk an event trace exactly as `applyEvents` does and add up
the amounts of the accepted deposits, accepted withdrawals and accepted
chargebacks ("accepted" = the call returned `Ok`; ignored events contribute
nothing by construction). -/

/-- Whether a `publish_transaction` result is `Ok`. -/
def pubOk : Except PubErr Unit → Bool
  | .ok _ => true
  | .error _ => false

/-- The amount an event contributes as an accepted deposit (`0` unless it is
a deposit and the call returns `Ok`). -/
def depositDelta (c : Client) (e : ClientEvent) : Int :=
  if e.ty = .deposit ∧ pubOk (c.publishTransaction e.txId e.ty e.amount).1 = true
    then e.amount.getD 0 else 0

/-- The amount an event contributes as an accepted withdrawal. -/
def withdrawalDelta (c : Client) (e : ClientEvent) : Int :=
  if e.ty = .withdrawal ∧ pubOk (c.publishTransaction e.txId e.ty e.amount).1 = true
    then e.amount.getD 0 else 0

/-- The amount a chargeback event would remove: the amount of the Dispute
record currently under the event's tx id (`0` if there is none — in that case
the event cannot be an accepted chargeback anyway). -/
def chargebackContrib (c : Client) (e : ClientEvent) : Int :=
  match logLookup e.txId c.transactionLog with
  | some (some (Transaction.dispute a)) => a
  | _ => 0

/-- The amount an event contributes as an accepted chargeback. -/
def chargebackDelta (c : Client) (e : ClientEvent) : Int :=
  if e.ty = .chargeback ∧ pubOk (c.publishTransaction e.txId e.ty e.amount).1 = true
    then chargebackContrib c e else 0

/-- Sum of the amounts of accepted deposits along a trace. -/
def acceptedDepositSum : Client → List ClientEvent → Int
  | _, [] => 0
  | c, e :: rest =>
    depositDelta c e + acceptedDepositSum (c.publishTransaction e.txId e.ty e.amount).2 rest

/-- Sum of the amounts of accepted withdrawals along a trace. -/
def acceptedWithdrawalSum : Client → List ClientEvent → Int
  | _, [] => 0
  | c, e :: rest =>
    withdrawalDelta c e +
      acceptedWithdrawalSum (c.publishTransaction e.txId e.ty e.amount).2 rest

/-- Sum of the amounts of accepted chargebacks along a trace. -/
def chargebackSum : Client → List ClientEvent → Int
  | _, [] => 0
  | c, e :: rest =>
    chargebackDelta c e + chargebackSum (c.publishTransaction e.txId e.ty e.amount).2 rest

/-- One log slot's contribution to the held balance: the amount of a Dispute
record, `0` otherwise. -/
def slotContrib : TxSlot → Int
  | some (Transaction.dispute a) => a
  | _ => 0

/-- Sum of all Dispute amounts recorded in the log. -/
def disputeSum (l : TxLog) : Int := (l.map (fun p => slotContrib p.2)).sum

/-- The inductive invariant behind `held ≥ 0`: on an active account the log is
in canonical form, `held` equals the sum of the recorded Dispute amounts, and
every recorded amount is non-negative; `held ≥ 0` itself also survives the
freeze. -/
def heldInv (c : Client) : Prop :=
  0 ≤ c.held ∧
  (c.status = .active →
    logSorted c.transactionLog ∧
    c.held = disputeSum c.transactionLog ∧
    ∀ p ∈ c.transactionLog, ∀ r, p.2 = some r → 0 ≤ r.amount)

/-! ### The engines (`src/clients/`)

`IncomingTransaction` is the parsed CSV record (`src/transaction.rs`).  The
client map of `synchronous.rs` (`FnvHashMap<u16, Client>`) is modelled as an
association list in first-seen order (`entry().or_insert_with` creates
missing clients; row output order is unspecified in the source, and all
cross-engine comparisons below are up to permutation). -/

/-- `IncomingTransaction` from `src/transaction.rs`. -/
structure IncomingTransaction where
  ty : TransactionType
  client : Nat
  tx : Nat
  amount : Option Int
deriving DecidableEq, Repr

/-- The engine's client map. -/
abbrev ClientsMap := List (Nat × Client)

/-- `HashMap` lookup on the client map. -/
def mapLookup (cid : Nat) (m : ClientsMap) : Option Client :=
  (m.find? (fun p => p.1 = cid)).map (fun p => p.2)

/-- `self.0.entry(client).or_insert_with(|| Client::new(client))`: the entry
for `cid`, creating it (appended, first-seen order) when absent. -/
def getOrCreate (cid : Nat) (m : ClientsMap) : Client × ClientsMap :=
  match mapLookup cid m with
  | some c => (c, m)
  | none => (Client.new cid, m ++ [(cid, Client.new cid)])

/-- Writing back the in-place mutation of the entry for `cid`. -/
def mapUpdate (cid : Nat) (c : Client) (m : ClientsMap) : ClientsMap :=
  m.map (fun p => if p.1 = cid then (cid, c) else p)

/-- `SyncClients::publish_transaction` from `src/clients/synchronous.rs`:
get-or-create the client; skip it entirely when locked; otherwise publish and
propagate any error whose message does not start with `"[FROZEN_ACCOUNT]"`
(the mutated client stays in the map either way). -/
def syncPublish (m : ClientsMap) (t : IncomingTransaction) : Except PubErr ClientsMap :=
  let cm := getOrCreate t.client m
  if cm.1.isLocked then .ok cm.2
  else
    let out := cm.1.publishTransaction t.tx t.ty t.amount
    let m2 := mapUpdate t.client out.2 cm.2
    match out.1 with
    | .ok _ => .ok m2
    | .error e => if e.hasFrozenAccountTag then .ok m2 else .error e

/-- `SyncClients::process` (default implementation in `src/clients/mod.rs`):
publish each event in order, aborting on the first error. -/
def syncProcess : List IncomingTransaction → ClientsMap → Except PubErr ClientsMap
  | [], m => .ok m
  | t :: rest, m =>
    match syncPublish m t with
    | .ok m' => syncProcess rest m'
    | .error e => .error e

/-- One output row (`Serialize for Client` in `src/client.rs`):
`client, available, held, total, locked` with `total = available + held`,
taken before the final numeric conversion to `f32` (identical client states
serialize to identical rows). -/
structure Row where
  client : Nat
  available : Int
  held : Int
  total : Int
  locked : Bool
deriving DecidableEq, Repr

/-- The summary row of one client. -/
def clientRow (c : Client) : Row :=
  { client := c.id, available := c.available, held := c.held,
    total := c.totalFunds, locked := c.isLocked }

/-- `SyncClients::output`: one row per stored client. -/
def syncRows (m : ClientsMap) : List Row := m.map (fun p => clientRow p.2)

/-- The events routed to worker `w` by `stream_like.rs`
(`bucket = client_id % channels.len()`). -/
def shardEvents (W w : Nat) (evs : List IncomingTransaction) : List IncomingTransaction :=
  evs.filter (fun t => t.client % W = w)

/-- The stream-like (sharded) engine from `src/clients/stream_like.rs` with
`W` workers: each worker feeds its shard through a `synchronous.rs` client
set aborting on the first error (`client.publish_transaction(msg)?`); on
output, a worker that ended in an error has its whole result dropped
(`filter_map` in `output`); surviving results are concatenated. -/
def streamRun (W : Nat) (evs : List IncomingTransaction) : List Row :=
  ((List.range W).map (fun w =>
    match syncProcess (shardEvents W w evs) [] with
    | .ok m => syncRows m
    | .error _ => [])).flatten

/-- The events addressed to one client, in arrival order (what the per-client
channel of `actor_like.rs` delivers). -/
def clientEvents (cid : Nat) (evs : List IncomingTransaction) : List IncomingTransaction :=
  evs.filter (fun t => t.client = cid)

/-- One per-client task of `src/clients/actor_like.rs`: publish each event in
order and stop at the first error (`break 'process`), returning the client. -/
def taskRun : Client → List IncomingTransaction → Client
  | c, [] => c
  | c, t :: rest =>
    match (c.publishTransaction t.tx t.ty t.amount).1 with
    | .ok _ => taskRun (c.publishTransaction t.tx t.ty t.amount).2 rest
    | .error _ => (c.publishTransaction t.tx t.ty t.amount).2

/-- Client ids in first-seen order, continuing from `ks` (the order in which
`actor_like.rs` creates tasks and `synchronous.rs` creates map entries). -/
def seenAfter (ks : List Nat) : List IncomingTransaction → List Nat
  | [] => ks
  | t :: rest => seenAfter (if t.client ∈ ks then ks else ks ++ [t.client]) rest

/-- The distinct client ids of an input, in first-seen order. -/
def actorClients (evs : List IncomingTransaction) : List Nat := seenAfter [] evs

/-- The actor-like engine from `src/clients/actor_like.rs`: one task per
distinct client (created at its first event, all events relayed in order),
rows emitted in task-creation order. -/
def actorRun (evs : List IncomingTransaction) : List Row :=
  (actorClients evs).map (fun cid => clientRow (taskRun (Client.new cid) (clientEvents cid evs)))

/-! Ghost definitions used to relate the engines (not source functions). -/

/-- The client the engine would use for `cid` given map `m`. -/
def initOf (m : ClientsMap) (cid : Nat) : Client :=
  (mapLookup cid m).getD (Client.new cid)

/-- The per-client state evolution inside `syncProcess`: events to a locked
client are skipped, all others take the post-`publish` state. -/
def clientFoldSkip : Client → List IncomingTransaction → Client
  | c, [] => c
  | c, t :: rest =>
    if c.isLocked then clientFoldSkip c rest
    else clientFoldSkip (c.publishTransaction t.tx t.ty t.amount).2 rest

/-- The per-client projection of `syncProcess`, with its error behaviour. -/
def syncClientRun : Client → List IncomingTransaction → Except PubErr Client
  | c, [] => .ok c
  | c, t :: rest =>
    if c.isLocked then syncClientRun c rest
    else
      match (c.publishTransaction t.tx t.ty t.amount).1 with
      | .ok _ => syncClientRun (c.publishTransaction t.tx t.ty t.amount).2 rest
      | .error e =>
        if e.hasFrozenAccountTag then syncClientRun (c.publishTransaction t.tx t.ty t.amount).2 rest
        else .error e

/-! ### The textual amount parser (`src/amount.rs`)

`Deserialize for Amount` reads a string, parses it with
`rust_decimal::Decimal::from_str_exact`, rounds to 4 fractional digits with
`round_dp` (strategy `MidpointNearestEven`, i.e. banker's rounding) and
rejects values whose sign flag is negative.  `rust_decimal` is an external
crate; `RawDec`/`fromStrExact`/`roundDp4` model its documented behaviour: a
`Decimal` is a sign flag, a 96-bit integer mantissa and a scale ≤ 28;
`from_str_exact` parses `[sign] digits [. digits]` exactly, erroring on
overflow of the mantissa or on more than 28 fractional digits (instead of
rounding, unlike `from_str`); rounding keeps the sign flag (so a negative
input rounding to zero still reports a negative sign).  Digit-separator
underscores and other exotic syntax are not modelled. -/

/-- A parsed decimal: sign flag, integer mantissa, number of fractional
digits.  The numeric value is `(-1)^negSign * mantissa / 10^scale`. -/
structure RawDec where
  negSign : Bool
  mantissa : Nat
  scale : Nat
deriving DecidableEq, Repr

/-- The numeric value of a parsed decimal. -/
def RawDec.value (d : RawDec) : ℚ :=
  (if d.negSign then -1 else 1) * (d.mantissa : ℚ) / (10 : ℚ) ^ d.scale

/-- Consume leading digits, returning the accumulated value, the digit count
and the rest. -/
def scanDigits : List Char → Nat → Nat → Nat × Nat × List Char
  | [], acc, cnt => (acc, cnt, [])
  | ch :: rest, acc, cnt =>
    if ch.isDigit then scanDigits rest (acc * 10 + (ch.toNat - '0'.toNat)) (cnt + 1)
    else (acc, cnt, ch :: rest)

/-- Model of `rust_decimal::Decimal::from_str_exact`. -/
def fromStrExact (s : String) : Except String RawDec :=
  let cs := s.toList
  let signRest : Bool × List Char :=
    match cs with
    | '-' :: rest => (true, rest)
    | '+' :: rest => (false, rest)
    | _ => (false, cs)
  let ires := scanDigits signRest.2 0 0
  match ires.2.2 with
  | [] =>
    if ires.2.1 = 0 then .error "Invalid decimal: no digits"
    else if 2 ^ 96 ≤ ires.1 then .error "Invalid decimal: overflow from too many digits"
    else .ok { negSign := signRest.1, mantissa := ires.1, scale := 0 }
  | '.' :: frac =>
    let fres := scanDigits frac 0 0
    if ¬ fres.2.2.isEmpty then .error "Invalid decimal: unknown character"
    else if fres.2.1 = 0 then .error "Invalid decimal: no digits after the decimal point"
    else if 28 < fres.2.1 then .error "Invalid decimal: underflow from too many digits"
    else
      let m := ires.1 * 10 ^ fres.2.1 + fres.1
      if 2 ^ 96 ≤ m then .error "Invalid decimal: overflow from too many digits"
      else .ok { negSign := signRest.1, mantissa := m, scale := fres.2.1 }
  | _ => .error "Invalid decimal: unknown character"

/-- Division of `n` by `D` rounded half to even (banker's rounding), the core
of `round_dp` with `RoundingStrategy::MidpointNearestEven`. -/
def halfEvenDiv (n D : Nat) : Nat :=
  if 2 * (n % D) < D then n / D
  else if D < 2 * (n % D) then n / D + 1
  else if (n / D) % 2 = 0 then n / D else n / D + 1

/-- `Decimal::round_dp(4)`: values with at most 4 fractional digits are
unchanged; otherwise the mantissa is divided half-to-even down to scale 4.
The sign flag is preserved. -/
def RawDec.roundDp4 (d : RawDec) : RawDec :=
  if d.scale ≤ 4 then d
  else { negSign := d.negSign, mantissa := halfEvenDiv d.mantissa (10 ^ (d.scale - 4)), scale := 4 }

/-- The scale-4 integer (`Amount` model) of a decimal with `scale ≤ 4`. -/
def RawDec.toScale4 (d : RawDec) : Int :=
  (if d.negSign then -1 else 1) * (d.mantissa : Int) * 10 ^ (4 - d.scale)

/-- `Deserialize for Amount` from `src/amount.rs`: `from_str_exact`, then
`round_dp(4)`, then reject a negative sign flag. -/
def deserializeAmount (s : String) : Except String Int :=
  match fromStrExact s with
  | .error e => .error e
  | .ok d =>
    if d.roundDp4.negSign then .error "expected a value greater than or equal to 0.0"
    else .ok d.roundDp4.toScale4

/-- The mathematical statement that `r` is `v` rounded half-to-even at scale
4: among scale-4 values, `r/10^4` is nearest to `v`, and an exact tie is
broken towards an even last digit. -/
def isHalfEvenRound4 (v : ℚ) (r : Int) : Prop :=
  |(r : ℚ) - v * 10 ^ 4| ≤ 1 / 2 ∧ (|(r : ℚ) - v * 10 ^ 4| = 1 / 2 → 2 ∣ r)

/-! ### Concrete inputs used by counterexamples and witnesses -/

/-- Three events: a deposit for client 1, an exact duplicate of it (an
ignorable anomaly), then a deposit for client 2. -/
def c2CexEvents : List IncomingTransaction :=
  [⟨.deposit, 1, 1, some 10000⟩, ⟨.deposit, 1, 1, some 10000⟩, ⟨.deposit, 2, 2, some 20000⟩]

/-- A well-formed input with no anomalies (used as a witness input). -/
def c2OkEvents : List IncomingTransaction :=
  [⟨.deposit, 1, 1, some 10000⟩, ⟨.deposit, 2, 2, some 20000⟩, ⟨.withdrawal, 1, 3, some 4000⟩]

/-- The client map the synchronous engine produces on `c2OkEvents`. -/
def c2OkMap : ClientsMap :=
  [(1, { id := 1, status := .active,
         transactionLog := [(1, some (Transaction.deposit 10000)), (3, none)],
         held := 0, available := 6000 }),
   (2, { id := 2, status := .active,
         transactionLog := [(2, some (Transaction.deposit 20000))],
         held := 0, available := 20000 })]

/-- An account with one deposit of `5.0000` currently under dispute. -/
def c3State : Client :=
  { id := 1, status := .active, transactionLog := [(1, some (Transaction.dispute 50000))],
    held := 50000, available := 0 }

/-- Deposit `1.0000` under tx 1, withdraw `1.0000` under tx 2, then dispute
tx 1 (the dispute finds no funds left to hold back). -/
def c10Events : List ClientEvent :=
  [⟨1, .deposit, some 10000⟩, ⟨2, .withdrawal, some 10000⟩, ⟨1, .dispute, none⟩]

/-- The account state after `c10Events`. -/
def c10Final : Client := applyEvents (Client.new 1) c10Events

/-- First step of `c10Events`: the deposit. -/
def c10Step1 : PubOut := (Client.new 1).publishTransaction 1 .deposit (some 10000)

/-- Second step of `c10Events`: the withdrawal of the same amount. -/
def c10Step2 : PubOut := c10Step1.2.publishTransaction 2 .withdrawal (some 10000)

/-- Third step of `c10Events`: the dispute of the spent deposit. -/
def c10Step3 : PubOut := c10Step2.2.publishTransaction 1 .dispute none

/-! ### Lemmas about the canonical transaction log -/

@[simp]
theorem logLookup_nil (k : Nat) : logLookup k [] = none := rfl

theorem logLookup_cons (k k' : Nat) (v' : TxSlot) (t : TxLog) :
    logLookup k ((k', v') :: t) = if k' = k then some v' else logLookup k t := by
  by_cases h : k' = k
  · simp [logLookup, List.find?_cons_of_pos, h]
  · simp [logLookup, List.find?_cons_of_neg, h]

@[simp]
theorem logErase_nil (k : Nat) : logErase k [] = [] := rfl

theorem logErase_cons (k k' : Nat) (v' : TxSlot) (t : TxLog) :
    logErase k ((k', v') :: t) =
      if k' = k then logErase k t else (k', v') :: logErase k t := by
  by_cases h : k' = k <;> simp [logErase, List.filter_cons, h]

theorem logLookup_logInsert_self (k : Nat) (v : TxSlot) (l : TxLog) :
    logLookup k (logInsert k v l) = some v := by
  induction l with
  | nil => simp [logInsert, logLookup_cons]
  | cons p t ih =>
    obtain ⟨k', v'⟩ := p
    by_cases hlt : k < k'
    · simp [logInsert, hlt, logLookup_cons]
    · by_cases heq : k = k'
      · simp [logInsert, hlt, heq, logLookup_cons]
      · have hne : ¬ k' = k := fun h => heq h.symm
        simp [logInsert, hlt, heq, logLookup_cons, hne, ih]

theorem logLookup_logInsert_ne (k k' : Nat) (v : TxSlot) (l : TxLog) (h : k' ≠ k) :
    logLookup k' (logInsert k v l) = logLookup k' l := by
  have hne : ¬ k = k' := fun hh => h hh.symm
  induction l with
  | nil => simp [logInsert, logLookup_cons, hne]
  | cons p t ih =>
    obtain ⟨k₁, v₁⟩ := p
    by_cases hlt : k < k₁
    · simp [logInsert, hlt, logLookup_cons, hne]
    · by_cases heq : k = k₁
      · subst heq
        simp [logInsert, hlt, logLookup_cons, hne]
      · simp [logInsert, hlt, heq, logLookup_cons, ih]

theorem logLookup_logErase_self (k : Nat) (l : TxLog) :
    logLookup k (logErase k l) = none := by
  induction l with
  | nil => simp
  | cons p t ih =>
    obtain ⟨k₁, v₁⟩ := p
    by_cases h : k₁ = k
    · simp [logErase_cons, h, ih]
    · simp [logErase_cons, h, logLookup_cons, ih]

theorem logLookup_logErase_ne (k k' : Nat) (l : TxLog) (h : k' ≠ k) :
    logLookup k' (logErase k l) = logLookup k' l := by
  induction l with
  | nil => simp
  | cons p t ih =>
    obtain ⟨k₁, v₁⟩ := p
    by_cases h1 : k₁ = k
    · subst h1
      have hne : ¬ k₁ = k' := fun hh => h hh.symm
      simp [logErase_cons, ih, logLookup_cons, hne]
    · simp [logErase_cons, h1, logLookup_cons, ih]

theorem logLookup_mem {k : Nat} {v : TxSlot} {l : TxLog}
    (h : logLookup k l = some v) : (k, v) ∈ l := by
  induction l with
  | nil => simp at h
  | cons p t ih =>
    obtain ⟨k₁, v₁⟩ := p
    rw [logLookup_cons] at h
    by_cases h1 : k₁ = k
    · subst h1
      simp at h
      simp [h]
    · simp [h1] at h
      exact List.mem_cons_of_mem _ (ih h)

theorem mem_logInsert {p : Nat × TxSlot} {k : Nat} {v : TxSlot} {l : TxLog}
    (h : p ∈ logInsert k v l) : p = (k, v) ∨ p ∈ l := by
  induction l with
  | nil => simpa [logInsert] using h
  | cons q t ih =>
    obtain ⟨k₁, v₁⟩ := q
    by_cases hlt : k < k₁
    · simp [logInsert, hlt] at h
      rcases h with h | h | h
      · exact Or.inl h
      · exact Or.inr (by simp [h])
      · exact Or.inr (List.mem_cons_of_mem _ h)
    · by_cases heq : k = k₁
      · simp [logInsert, hlt, heq] at h
        rcases h with h | h
        · exact Or.inl (by simp [h, heq])
        · exact Or.inr (List.mem_cons_of_mem _ h)
      · simp [logInsert, hlt, heq] at h
        rcases h with h | h
        · exact Or.inr (by simp [h])
        · rcases ih h with h' | h'
          · exact Or.inl h'
          · exact Or.inr (List.mem_cons_of_mem _ h')

theorem mem_logErase {p : Nat × TxSlot} {k : Nat} {l : TxLog}
    (h : p ∈ logErase k l) : p ∈ l :=
  List.mem_of_mem_filter h

theorem logSorted_nil : logSorted [] := List.Pairwise.nil

theorem logSorted_logErase (k : Nat) {l : TxLog} (h : logSorted l) :
    logSorted (logErase k l) :=
  List.Pairwise.filter _ h

theorem logSorted_logInsert (k : Nat) (v : TxSlot) {l : TxLog} (h : logSorted l) :
    logSorted (logInsert k v l) := by
  induction l with
  | nil => simp [logInsert, logSorted]
  | cons p t ih =>
    obtain ⟨k₁, v₁⟩ := p
    rw [logSorted, List.pairwise_cons] at h
    obtain ⟨hhead, htail⟩ := h
    by_cases hlt : k < k₁
    · rw [logSorted, logInsert]
      simp only [hlt, if_true]
      rw [List.pairwise_cons]
      constructor
      · intro q hq
        rcases List.mem_cons.mp hq with h' | h'
        · simp [h']; omega
        · have := hhead q h'
          simp only at this ⊢
          omega
      · rw [List.pairwise_cons]; exact ⟨hhead, htail⟩
    · by_cases heq : k = k₁
      · subst heq
        rw [logSorted, logInsert]
        simp only [hlt, if_true, if_false, ite_true, ite_false, reduceIte]
        rw [List.pairwise_cons]
        exact ⟨hhead, htail⟩
      · rw [logSorted, logInsert]
        simp only [hlt, heq, if_false, ite_false, reduceIte]
        rw [List.pairwise_cons]
        constructor
        · intro q hq
          rcases mem_logInsert hq with h' | h'
          · subst h'; simp; omega
          · exact hhead q h'
        · exact ih htail

/-- In a sorted log, erasing a key and re-inserting the value found there
reconstructs the log: this is what makes the Rust `remove`-then-`insert`
error paths state-preserving. -/
theorem logInsert_logErase_of_logLookup {k : Nat} {v : TxSlot} {l : TxLog}
    (hs : logSorted l) (h : logLookup k l = some v) :
    logInsert k v (logErase k l) = l := by
  induction l with
  | nil => simp at h
  | cons p t ih =>
    obtain ⟨k₁, v₁⟩ := p
    rw [logSorted, List.pairwise_cons] at hs
    obtain ⟨hhead, htail⟩ := hs
    rw [logLookup_cons] at h
    by_cases h1 : k₁ = k
    · subst h1
      simp at h
      subst h
      have herase : logErase k₁ t = t := by
        apply List.filter_eq_self.mpr
        intro q hq
        have := hhead q hq
        simp only [decide_eq_true_eq]
        omega
      rw [logErase_cons, if_pos rfl, herase]
      cases t with
      | nil => simp [logInsert]
      | cons q t' =>
        obtain ⟨k₂, v₂⟩ := q
        have hk : k₁ < k₂ := hhead (k₂, v₂) (List.mem_cons_self _ _)
        simp [logInsert, hk]
    · simp only [h1, if_false, ite_false, reduceIte] at h
      have hmem : (k, v) ∈ t := logLookup_mem h
      have hk1 : k₁ < k := hhead (k, v) hmem
      rw [logErase_cons, if_neg h1]
      rw [logInsert]
      have : ¬ k < k₁ := by omega
      simp only [this, if_false, ite_false, reduceIte]
      have : ¬ k = k₁ := fun hh => h1 hh.symm
      simp only [this, if_false, ite_false, reduceIte]
      rw [ih htail h]

@[simp]
theorem disputeSum_nil : disputeSum [] = 0 := rfl

theorem disputeSum_cons (p : Nat × TxSlot) (t : TxLog) :
    disputeSum (p :: t) = slotContrib p.2 + disputeSum t := by
  simp [disputeSum]

theorem disputeSum_logInsert_of_lookup_none {k : Nat} (v : TxSlot) {l : TxLog}
    (h : logLookup k l = none) :
    disputeSum (logInsert k v l) = slotContrib v + disputeSum l := by
  induction l with
  | nil => simp [logInsert, disputeSum]
  | cons p t ih =>
    obtain ⟨k₁, v₁⟩ := p
    rw [logLookup_cons] at h
    by_cases h1 : k₁ = k
    · simp [h1] at h
    · simp only [h1, if_false, ite_false, reduceIte] at h
      by_cases hlt : k < k₁
      · simp [logInsert, hlt, disputeSum_cons]
      · have hne : k ≠ k₁ := fun hh => h1 hh.symm
        simp only [logInsert, hlt, hne, if_false, ite_false, reduceIte]
        rw [disputeSum_cons, disputeSum_cons, ih h]
        ring

theorem disputeSum_logErase_of_lookup {k : Nat} {v : TxSlot} {l : TxLog}
    (hs : logSorted l) (h : logLookup k l = some v) :
    disputeSum (logErase k l) = disputeSum l - slotContrib v := by
  induction l with
  | nil => simp at h
  | cons p t ih =>
    obtain ⟨k₁, v₁⟩ := p
    rw [logSorted, List.pairwise_cons] at hs
    obtain ⟨hhead, htail⟩ := hs
    rw [logLookup_cons] at h
    by_cases h1 : k₁ = k
    · subst h1
      simp at h
      subst h
      have herase : logErase k₁ t = t := by
        apply List.filter_eq_self.mpr
        intro q hq
        have := hhead q hq
        simp only [decide_eq_true_eq]
        omega
      rw [logErase_cons, if_pos rfl, herase, disputeSum_cons]
      ring
    · simp only [h1, if_false, ite_false, reduceIte] at h
      rw [logErase_cons, if_neg h1, disputeSum_cons, disputeSum_cons, ih htail h]
      ring

theorem disputeSum_nonneg {l : TxLog}
    (h : ∀ p ∈ l, 0 ≤ slotContrib p.2) : 0 ≤ disputeSum l := by
  induction l with
  | nil => simp
  | cons p t ih =>
    rw [disputeSum_cons]
    have h1 := h p (List.mem_cons_self _ _)
    have h2 := ih (fun q hq => h q (List.mem_cons_of_mem _ hq))
    omega

/-! ### Helper lemmas about `publish_transaction` -/

theorem transition_ok_cases {trx t : Transaction} {ty : TransactionType}
    (h : trx.transition ty = .ok t) :
    (∃ a, trx = .deposit a ∧ ty = .dispute ∧ t = .dispute a) ∨
    (∃ a, trx = .dispute a ∧ ty = .resolve ∧ t = .resolve a) ∨
    (∃ a, trx = .dispute a ∧ ty = .chargeback ∧ t = .chargeback a) := by
  cases trx <;> cases ty <;> simp_all [Transaction.transition]

theorem isLocked_eq_true_iff {c : Client} : c.isLocked = true ↔ c.status = .frozen := by
  cases hc : c.status <;> simp [Client.isLocked, hc]

/-- On a frozen account, `publish_transaction` errors and changes nothing. -/
theorem publishTransaction_frozen {c : Client} (h : c.status = .frozen)
    (k : Nat) (ty : TransactionType) (a : Option Int) :
    c.publishTransaction k ty a = (.error .frozenAccount, c) := by
  simp [Client.publishTransaction, h]

/-- Any erroring `publish_transaction` call leaves the account (with its log
in canonical form) exactly as it was. -/
theorem publishTransaction_error_eq {c : Client} {k : Nat} {ty : TransactionType}
    {a : Option Int} (hs : logSorted c.transactionLog)
    (he : pubOk (c.publishTransaction k ty a).1 = false) :
    (c.publishTransaction k ty a).2 = c := by
  by_cases hf : c.status = .frozen
  · rw [publishTransaction_frozen hf]
  · rcases hl : logLookup k c.transactionLog with _ | (_ | trx)
    · -- brand-new transaction id
      cases ty with
      | deposit =>
        cases a with
        | none => simp [Client.publishTransaction, hf, hl]
        | some amt => simp_all [Client.publishTransaction, Client.deposit, pubOk]
      | withdrawal =>
        cases a with
        | none => simp [Client.publishTransaction, hf, hl]
        | some amt =>
          by_cases hle : amt ≤ c.available
          · simp_all [Client.publishTransaction, Client.withdraw, pubOk, hle]
          · simp [Client.publishTransaction, hf, hl, Client.withdraw, hle]
      | dispute => cases a <;> simp [Client.publishTransaction, hf, hl]
      | resolve => cases a <;> simp [Client.publishTransaction, hf, hl]
      | chargeback => cases a <;> simp [Client.publishTransaction, hf, hl]
    · -- terminal sentinel: the value is removed and re-inserted
      simp only [Client.publishTransaction, hf, if_false, ite_false, reduceIte, hl]
      rw [logInsert_logErase_of_logLookup hs hl]
    · -- live record: legal transitions return Ok, illegal ones re-insert
      rcases ht : trx.transition ty with e | t
      · simp only [Client.publishTransaction, hf, if_false, ite_false, reduceIte, hl, ht]
        rw [logInsert_logErase_of_logLookup hs hl]
      · rcases transition_ok_cases ht with ⟨amt, h1, h2, h3⟩ | ⟨amt, h1, h2, h3⟩ | ⟨amt, h1, h2, h3⟩ <;>
          subst h1 <;> subst h2 <;> subst h3 <;>
          simp [Client.publishTransaction, hf, hl, ht, Client.dispute, Client.resolve,
            Client.chargeback, pubOk] at he

/-- A frozen account ignores every further event sequence. -/
theorem applyEvents_frozen {c : Client} (h : c.status = .frozen) :
    ∀ evs : List ClientEvent, applyEvents c evs = c
  | [] => rfl
  | e :: rest => by
    rw [applyEvents, publishTransaction_frozen h]
    exact applyEvents_frozen h rest

/-! ### Claims C3, C4, C5, C6, C10 -/

/-- Claim C3, counterexample: on an account with a live Dispute record, the
chargeback event does freeze, debit and clear — but the call returns `Ok`,
not a fatal error, so the claim's conjunct "signals the caller to stop
routing events to this account" (the spec's `return Fatal(FrozenAccount)`)
fails at this concrete input. -/
theorem c3_counterexample :
    ¬ ((c3State.publishTransaction 1 TransactionType.chargeback none).2.status
        = AccountStatus.frozen ∧
       (c3State.publishTransaction 1 TransactionType.chargeback none).2.transactionLog = [] ∧
       pubOk (c3State.publishTransaction 1 TransactionType.chargeback none).1 = false) := by
  decide

/-- Claim C3 (amended): when a Chargeback arrives for a tx id whose slot
holds a Dispute record with amount `amt`, the account subtracts `amt` from
`held`, sets its status to `Frozen`, clears the entire log, and the call
returns `Ok`; the caller is not signalled through this call's return value —
instead every subsequent event on the account fails with the frozen-account
error (and engine callers consult `is_locked`). -/
theorem c3_chargeback (c : Client) (k : Nat) (amt : Int)
    (hst : c.status = .active)
    (hl : logLookup k c.transactionLog = some (some (Transaction.dispute amt))) :
    c.publishTransaction k .chargeback none =
      (.ok (), { c with held := c.held - amt, status := .frozen, transactionLog := [] }) ∧
    ∀ (k' : Nat) (ty' : TransactionType) (a' : Option Int),
      Client.publishTransaction
          { c with held := c.held - amt, status := .frozen, transactionLog := [] } k' ty' a' =
        (.error .frozenAccount,
         { c with held := c.held - amt, status := .frozen, transactionLog := [] }) := by
  have hnf : ¬ c.status = .frozen := by rw [hst]; intro h; cases h
  constructor
  · simp [Client.publishTransaction, hnf, hl, Transaction.transition, Client.chargeback]
  · intro k' ty' a'
    exact publishTransaction_frozen rfl k' ty' a'

/-- Witness for C3's amended theorem at a concrete disputed account. -/
theorem c3_witness :
    c3State.status = .active ∧
    logLookup 1 c3State.transactionLog = some (some (Transaction.dispute 50000)) ∧
    c3State.publishTransaction 1 .chargeback none =
      (.ok (), { c3State with held := 0, status := .frozen, transactionLog := [] }) := by
  refine ⟨by decide, by decide, ?_⟩
  exact (c3_chargeback c3State 1 50000 (by decide) (by decide)).1

/-- Claim C4: once an account reports `locked = true` (its status is Frozen),
no subsequently applied event sequence changes any of its fields. -/
theorem c4_terminal_frozenness (c : Client) (evs : List ClientEvent)
    (h : c.isLocked = true) : applyEvents c evs = c :=
  applyEvents_frozen (isLocked_eq_true_iff.mp h) evs

/-- Witness for C4 at a concrete frozen account. -/
theorem c4_witness :
    (Client.mk 2 .frozen [] 0 70000).isLocked = true ∧
    applyEvents (Client.mk 2 .frozen [] 0 70000)
      [⟨9, .deposit, some 100⟩, ⟨9, .dispute, none⟩, ⟨10, .withdrawal, some 50⟩] =
      Client.mk 2 .frozen [] 0 70000 :=
  ⟨by decide, c4_terminal_frozenness _ _ (by decide)⟩

/-- Claim C5: an event the state machine ignores (any erroring
`publish_transaction` call — illegal transition, duplicate id, unknown or
terminal id, missing amount, insufficient funds, frozen account) leaves the
account state exactly equal to its pre-application state. -/
theorem c5_ignored_event_preserves_state (c : Client) (k : Nat)
    (ty : TransactionType) (a : Option Int) (hs : logSorted c.transactionLog)
    (he : pubOk (c.publishTransaction k ty a).1 = false) :
    (c.publishTransaction k ty a).2 = c :=
  publishTransaction_error_eq hs he

/-- Witness for C5: a Resolve with no preceding Dispute on a fresh account is
ignored and preserves the state. -/
theorem c5_witness :
    logSorted (Client.new 3).transactionLog ∧
    pubOk ((Client.new 3).publishTransaction 5 .resolve none).1 = false ∧
    ((Client.new 3).publishTransaction 5 .resolve none).2 = Client.new 3 :=
  ⟨by decide, by decide,
   c5_ignored_event_preserves_state (Client.new 3) 5 .resolve none (by decide) (by decide)⟩

/-- Claim C6, counterexample: a Withdrawal of 7.0000 under a brand-new tx id
on an account with 5.0000 available does leave the state unchanged — but the
call returns the insufficient-funds error (`client.rs` line 190 returns
`Err(eyre!("unable to withdraw as the account does not have enough available
funds"))`), so the claim's "causes no state change and no error" conjunct is
false at this concrete input. -/
theorem c6_counterexample :
    ¬ (((Client.mk 4 .active [] 0 50000).publishTransaction 8 .withdrawal (some 70000)).2 =
         Client.mk 4 .active [] 0 50000 ∧
       pubOk ((Client.mk 4 .active [] 0 50000).publishTransaction 8 .withdrawal
         (some 70000)).1 = true) := by
  decide

/-- Claim C6 (amended): a Withdrawal under a brand-new tx id whose amount
exceeds the available funds causes no state change and the tx id is NOT
recorded in the log, so a later withdrawal with the same id and sufficient
funds succeeds; the call does, however, return the insufficient-funds error
(rather than "no error" — the per-client callers treat it as ignorable, like
the other silently-ignored anomalies). -/
theorem c6_insufficient_withdrawal (c : Client) (k : Nat) (a a' : Int)
    (hst : c.status = .active)
    (hl : logLookup k c.transactionLog = none)
    (hin : c.available < a)
    (hok : a' ≤ c.available) :
    c.publishTransaction k .withdrawal (some a) = (.error .insufficientFunds, c) ∧
    c.publishTransaction k .withdrawal (some a') =
      (.ok (), { c with available := c.available - a',
                        transactionLog := logInsert k none c.transactionLog }) := by
  have hnf : ¬ c.status = .frozen := by rw [hst]; intro h; cases h
  have hnle : ¬ a ≤ c.available := by omega
  constructor
  · simp [Client.publishTransaction, hnf, hl, Client.withdraw, hnle]
  · simp [Client.publishTransaction, hnf, hl, Client.withdraw, hok]

/-- Witness for C6: withdrawing 7.0000 from 5.0000 fails silently, then
withdrawing 2.0000 under the same id succeeds. -/
theorem c6_witness :
    (Client.mk 4 .active [] 0 50000).publishTransaction 8 .withdrawal (some 70000) =
      (.error .insufficientFunds, Client.mk 4 .active [] 0 50000) ∧
    (Client.mk 4 .active [] 0 50000).publishTransaction 8 .withdrawal (some 20000) =
      (.ok (), Client.mk 4 .active [(8, none)] 0 30000) := by
  have h := c6_insufficient_withdrawal (Client.mk 4 .active [] 0 50000) 8 70000 20000
    (by decide) (by decide) (by decide) (by decide)
  exact ⟨h.1, h.2⟩

/-- Claim C10: after deposit 1.0000 (tx 1), withdrawal 1.0000 (tx 2) and a
dispute of tx 1 — all three accepted — the available balance is strictly
negative (-1.0000), and the summary row reports that negative value. -/
theorem c10_dispute_negative_available :
    pubOk c10Step1.1 = true ∧ pubOk c10Step2.1 = true ∧ pubOk c10Step3.1 = true ∧
    c10Step3.2 = c10Final ∧
    c10Final.available = -10000 ∧ c10Final.available < 0 ∧
    (clientRow c10Final).available = -10000 := by
  decide

/-! ### Success-shape lemmas for `publish_transaction` -/

theorem publish_deposit_new {c : Client} {k : Nat} {amt : Int}
    (hf : ¬ c.status = .frozen) (hl : logLookup k c.transactionLog = none) :
    c.publishTransaction k .deposit (some amt) =
      (.ok (),
       { c with
          transactionLog := logInsert k (some (Transaction.deposit amt)) c.transactionLog,
          available := c.available + amt }) := by
  simp [Client.publishTransaction, hf, hl, Client.deposit]

theorem publish_withdraw_ok {c : Client} {k : Nat} {amt : Int}
    (hf : ¬ c.status = .frozen) (hl : logLookup k c.transactionLog = none)
    (hle : amt ≤ c.available) :
    c.publishTransaction k .withdrawal (some amt) =
      (.ok (),
       { c with
          available := c.available - amt,
          transactionLog := logInsert k none c.transactionLog }) := by
  simp [Client.publishTransaction, hf, hl, Client.withdraw, hle]

theorem publish_dispute_ok {c : Client} {k : Nat} {amt : Int} {a : Option Int}
    (hf : ¬ c.status = .frozen)
    (hl : logLookup k c.transactionLog = some (some (Transaction.deposit amt))) :
    c.publishTransaction k .dispute a =
      (.ok (),
       { c with
          available := c.available - amt,
          held := c.held + amt,
          transactionLog :=
            logInsert k (some (Transaction.dispute amt)) (logErase k c.transactionLog) }) := by
  simp [Client.publishTransaction, hf, hl, Transaction.transition, Client.dispute]

theorem publish_resolve_ok {c : Client} {k : Nat} {amt : Int} {a : Option Int}
    (hf : ¬ c.status = .frozen)
    (hl : logLookup k c.transactionLog = some (some (Transaction.dispute amt))) :
    c.publishTransaction k .resolve a =
      (.ok (),
       { c with
          held := c.held - amt,
          available := c.available + amt,
          transactionLog := logInsert k none (logErase k c.transactionLog) }) := by
  simp [Client.publishTransaction, hf, hl, Transaction.transition, Client.resolve]

theorem publish_chargeback_ok {c : Client} {k : Nat} {amt : Int} {a : Option Int}
    (hf : ¬ c.status = .frozen)
    (hl : logLookup k c.transactionLog = some (some (Transaction.dispute amt))) :
    c.publishTransaction k .chargeback a =
      (.ok (),
       { c with
          held := c.held - amt,
          status := .frozen,
          transactionLog := [] }) := by
  simp [Client.publishTransaction, hf, hl, Transaction.transition, Client.chargeback]

/-! ### Claim C1: conservation of funds -/

/-- One step of conservation: a `publish_transaction` call moves
`available + held` by exactly its accepted-deposit, accepted-withdrawal and
accepted-chargeback contributions. -/
theorem conservation_step (c : Client) (e : ClientEvent) :
    (c.publishTransaction e.txId e.ty e.amount).2.available +
      (c.publishTransaction e.txId e.ty e.amount).2.held =
    c.available + c.held + depositDelta c e - withdrawalDelta c e - chargebackDelta c e := by
  obtain ⟨k, ty, a⟩ := e
  simp only [depositDelta, withdrawalDelta, chargebackDelta]
  by_cases hf : c.status = .frozen
  · simp [publishTransaction_frozen hf, pubOk]
  · rcases hl : logLookup k c.transactionLog with _ | (_ | trx)
    · cases ty with
      | deposit =>
        cases a with
        | none => simp [Client.publishTransaction, hf, hl, pubOk]
        | some amt =>
          rw [publish_deposit_new hf hl]
          simp [pubOk]
          try ring
      | withdrawal =>
        cases a with
        | none => simp [Client.publishTransaction, hf, hl, pubOk]
        | some amt =>
          by_cases hle : amt ≤ c.available
          · rw [publish_withdraw_ok hf hl hle]
            simp [pubOk]
            try ring
          · simp [Client.publishTransaction, hf, hl, Client.withdraw, hle, pubOk]
      | dispute => cases a <;> simp [Client.publishTransaction, hf, hl, pubOk]
      | resolve => cases a <;> simp [Client.publishTransaction, hf, hl, pubOk]
      | chargeback => cases a <;> simp [Client.publishTransaction, hf, hl, pubOk]
    · simp [Client.publishTransaction, hf, hl, pubOk]
    · rcases ht : trx.transition ty with e' | t
      · simp [Client.publishTransaction, hf, hl, ht, pubOk]
      · rcases transition_ok_cases ht with ⟨amt, h1, h2, h3⟩ | ⟨amt, h1, h2, h3⟩ | ⟨amt, h1, h2, h3⟩ <;>
          subst h1 <;> subst h2
        · rw [publish_dispute_ok hf hl]
          simp [pubOk]
          try ring
        · rw [publish_resolve_ok hf hl]
          simp [pubOk]
          try ring
        · rw [publish_chargeback_ok hf hl]
          simp [pubOk, chargebackContrib, hl]
          try ring

/-- Conservation along a whole trace, from an arbitrary start state. -/
theorem conservation_trace :
    ∀ (evs : List ClientEvent) (c : Client),
      (applyEvents c evs).available + (applyEvents c evs).held =
        c.available + c.held + acceptedDepositSum c evs -
          acceptedWithdrawalSum c evs - chargebackSum c evs
  | [], c => by
    simp [applyEvents, acceptedDepositSum, acceptedWithdrawalSum, chargebackSum]
  | e :: rest, c => by
    rw [applyEvents]
    have hstep := conservation_step c e
    have ih := conservation_trace rest (c.publishTransaction e.txId e.ty e.amount).2
    simp only [acceptedDepositSum, acceptedWithdrawalSum, chargebackSum]
    omega

/-- Claim C1: for every event sequence applied to a fresh account, the final
`total = available + held` equals the sum of the accepted deposit amounts
minus the accepted withdrawal amounts minus the charged-back amounts; ignored
events contribute nothing (the sums only count calls that returned `Ok`). -/
theorem c1_conservation (clientId : Nat) (evs : List ClientEvent) :
    (applyEvents (Client.new clientId) evs).totalFunds =
      acceptedDepositSum (Client.new clientId) evs -
        acceptedWithdrawalSum (Client.new clientId) evs -
        chargebackSum (Client.new clientId) evs := by
  have h := conservation_trace evs (Client.new clientId)
  have h1 : (Client.new clientId).available = 0 := rfl
  have h2 : (Client.new clientId).held = 0 := rfl
  simp only [Client.totalFunds]
  omega

/-! ### Claim C7: held stays non-negative -/

theorem slotContrib_nonneg_of {s : TxSlot} (h : ∀ r, s = some r → 0 ≤ r.amount) :
    0 ≤ slotContrib s := by
  match s with
  | none => simp [slotContrib]
  | some (Transaction.deposit x) => simp [slotContrib]
  | some (Transaction.withdrawal x) => simp [slotContrib]
  | some (Transaction.dispute x) =>
    simpa [slotContrib, Transaction.amount] using h (Transaction.dispute x) rfl
  | some (Transaction.resolve x) => simp [slotContrib]
  | some (Transaction.chargeback x) => simp [slotContrib]

/-- The held-funds invariant survives one `publish_transaction` call whose
amount argument (if any) is non-negative. -/
theorem heldInv_step (c : Client) (e : ClientEvent)
    (ha : 0 ≤ e.amount.getD 0) (hi : heldInv c) :
    heldInv (c.publishTransaction e.txId e.ty e.amount).2 := by
  obtain ⟨k, ty, a⟩ := e
  obtain ⟨hheld, hact⟩ := hi
  by_cases hf : c.status = .frozen
  · rw [publishTransaction_frozen hf]
    exact ⟨hheld, hact⟩
  · have hstA : c.status = .active := by
      cases hc : c.status
      · rfl
      · exact absurd hc hf
    obtain ⟨hs, hsum, hrec⟩ := hact hstA
    by_cases hok : pubOk (c.publishTransaction k ty a).1 = true
    · rcases hl : logLookup k c.transactionLog with _ | (_ | trx)
      · cases ty with
        | deposit =>
          cases a with
          | none => simp [Client.publishTransaction, hf, hl, pubOk] at hok
          | some amt =>
            rw [publish_deposit_new hf hl]
            refine ⟨hheld, fun _ => ⟨logSorted_logInsert _ _ hs, ?_, ?_⟩⟩
            · simpa [disputeSum_logInsert_of_lookup_none _ hl, slotContrib] using hsum
            · intro p hp r hr
              rcases mem_logInsert hp with h' | h'
              · subst h'
                simp only at hr
                cases hr
                simpa [Transaction.amount] using ha
              · exact hrec p h' r hr
        | withdrawal =>
          cases a with
          | none => simp [Client.publishTransaction, hf, hl, pubOk] at hok
          | some amt =>
            by_cases hle : amt ≤ c.available
            · rw [publish_withdraw_ok hf hl hle]
              refine ⟨hheld, fun _ => ⟨logSorted_logInsert _ _ hs, ?_, ?_⟩⟩
              · simpa [disputeSum_logInsert_of_lookup_none _ hl, slotContrib] using hsum
              · intro p hp r hr
                rcases mem_logInsert hp with h' | h'
                · subst h'
                  cases hr
                · exact hrec p h' r hr
            · simp [Client.publishTransaction, hf, hl, Client.withdraw, hle, pubOk] at hok
        | dispute => cases a <;> simp [Client.publishTransaction, hf, hl, pubOk] at hok
        | resolve => cases a <;> simp [Client.publishTransaction, hf, hl, pubOk] at hok
        | chargeback => cases a <;> simp [Client.publishTransaction, hf, hl, pubOk] at hok
      · simp [Client.publishTransaction, hf, hl, pubOk] at hok
      · rcases ht : trx.transition ty with e' | t
        · simp [Client.publishTransaction, hf, hl, ht, pubOk] at hok
        · have hamt0 : ∀ x, trx = x → 0 ≤ x.amount :=
            fun x hx => hrec (k, some trx) (logLookup_mem hl) x (by rw [hx])
          have herase_none : logLookup k (logErase k c.transactionLog) = none :=
            logLookup_logErase_self k c.transactionLog
          have herase_rec :
              ∀ p ∈ logErase k c.transactionLog, ∀ r, p.2 = some r → 0 ≤ r.amount :=
            fun p hp r hr => hrec p (mem_logErase hp) r hr
          have herase_nonneg : 0 ≤ disputeSum (logErase k c.transactionLog) :=
            disputeSum_nonneg (fun p hp => slotContrib_nonneg_of (herase_rec p hp))
          rcases transition_ok_cases ht with ⟨amt, h1, h2, h3⟩ | ⟨amt, h1, h2, h3⟩ |
            ⟨amt, h1, h2, h3⟩ <;> subst h1 <;> subst h2
          · -- Deposit → Dispute
            have h0 : (0 : Int) ≤ amt := hamt0 _ rfl
            rw [publish_dispute_ok hf hl]
            have hsum' := disputeSum_logErase_of_lookup hs hl
            have hcd : slotContrib (some (Transaction.deposit amt)) = 0 := rfl
            have hcx : slotContrib (some (Transaction.dispute amt)) = amt := rfl
            rw [hcd] at hsum'
            refine ⟨?_, fun _ => ⟨logSorted_logInsert _ _ (logSorted_logErase _ hs), ?_, ?_⟩⟩
            · show (0 : Int) ≤ c.held + amt
              omega
            · show c.held + amt =
                disputeSum (logInsert k (some (Transaction.dispute amt))
                  (logErase k c.transactionLog))
              rw [disputeSum_logInsert_of_lookup_none _ herase_none, hcx]
              omega
            · intro p hp r hr
              rcases mem_logInsert hp with h' | h'
              · subst h'
                simp only at hr
                cases hr
                simpa [Transaction.amount] using h0
              · exact herase_rec p h' r hr
          · -- Dispute → Resolve
            have h0 : (0 : Int) ≤ amt := hamt0 _ rfl
            rw [publish_resolve_ok hf hl]
            have hsum' := disputeSum_logErase_of_lookup hs hl
            have hcx : slotContrib (some (Transaction.dispute amt)) = amt := rfl
            have hcn : slotContrib (none : TxSlot) = 0 := rfl
            rw [hcx] at hsum'
            refine ⟨?_, fun _ => ⟨logSorted_logInsert _ _ (logSorted_logErase _ hs), ?_, ?_⟩⟩
            · show (0 : Int) ≤ c.held - amt
              omega
            · show c.held - amt =
                disputeSum (logInsert k none (logErase k c.transactionLog))
              rw [disputeSum_logInsert_of_lookup_none _ herase_none, hcn]
              omega
            · intro p hp r hr
              rcases mem_logInsert hp with h' | h'
              · subst h'
                cases hr
              · exact herase_rec p h' r hr
          · -- Dispute → Chargeback
            rw [publish_chargeback_ok hf hl]
            have hsum' := disputeSum_logErase_of_lookup hs hl
            have hcx : slotContrib (some (Transaction.dispute amt)) = amt := rfl
            rw [hcx] at hsum'
            refine ⟨?_, fun hcontra => ?_⟩
            · show (0 : Int) ≤ c.held - amt
              omega
            · exact absurd (show AccountStatus.frozen = AccountStatus.active from hcontra)
                (by decide)
    · have : pubOk (c.publishTransaction k ty a).1 = false := by
        cases hv : pubOk (c.publishTransaction k ty a).1
        · rfl
        · exact absurd hv hok
      rw [publishTransaction_error_eq hs this]
      exact ⟨hheld, hact⟩

/-- The held-funds invariant holds along every trace of non-negative-amount
events. -/
theorem heldInv_applyEvents :
    ∀ (evs : List ClientEvent) (c : Client),
      (∀ e ∈ evs, 0 ≤ e.amount.getD 0) → heldInv c → heldInv (applyEvents c evs)
  | [], _, _, hi => hi
  | e :: rest, c, ha, hi => by
    rw [applyEvents]
    exact heldInv_applyEvents rest _
      (fun e' he' => ha e' (List.mem_cons_of_mem _ he'))
      (heldInv_step c e (ha e (List.mem_cons_self _ _)) hi)

theorem heldInv_new (clientId : Nat) : heldInv (Client.new clientId) := by
  refine ⟨le_refl 0, fun _ => ⟨List.Pairwise.nil, rfl, ?_⟩⟩
  intro p hp
  cases hp

/-- Claim C7: every state reachable from a fresh account by a sequence of
events (whose amounts, being parsed `Amount`s, are non-negative) has
`held ≥ 0`. -/
theorem c7_held_nonneg (clientId : Nat) (evs : List ClientEvent)
    (h : ∀ e ∈ evs, 0 ≤ e.amount.getD 0) :
    0 ≤ (applyEvents (Client.new clientId) evs).held :=
  (heldInv_applyEvents evs (Client.new clientId) h (heldInv_new clientId)).1

/-- Witness for C7 along a deposit–dispute–chargeback trace. -/
theorem c7_witness :
    (∀ e ∈ ([⟨1, .deposit, some 5000⟩, ⟨1, .dispute, none⟩, ⟨1, .chargeback, none⟩] :
        List ClientEvent), 0 ≤ e.amount.getD 0) ∧
    0 ≤ (applyEvents (Client.new 1)
      [⟨1, .deposit, some 5000⟩, ⟨1, .dispute, none⟩, ⟨1, .chargeback, none⟩]).held :=
  ⟨by decide, c7_held_nonneg 1 _ (by decide)⟩

/-! ### Claim C9: the textual amount parser -/

theorem roundDp4_negSign (d : RawDec) : d.roundDp4.negSign = d.negSign := by
  unfold RawDec.roundDp4
  split <;> rfl

/-- Integer bounds for half-to-even division: the result is within half a
divisor of the exact quotient, and an exact tie lands on an even value. -/
theorem halfEvenDiv_bounds (m D : Nat) (hD : 0 < D) :
    -(D : Int) ≤ 2 * ((halfEvenDiv m D : Int) * D - m) ∧
    2 * ((halfEvenDiv m D : Int) * D - m) ≤ D ∧
    ((2 * ((halfEvenDiv m D : Int) * D - m) = D ∨
      2 * ((halfEvenDiv m D : Int) * D - m) = -(D : Int)) →
      halfEvenDiv m D % 2 = 0) := by
  have hlt : m % D < D := Nat.mod_lt _ hD
  have h2 : (D : Int) * ((m / D : Nat) : Int) + ((m % D : Nat) : Int) = (m : Int) := by
    exact_mod_cast congrArg (Nat.cast : Nat → Int) (Nat.div_add_mod m D)
  have hdm : ((m / D : Nat) : Int) * (D : Int) = (m : Int) - ((m % D : Nat) : Int) := by
    rw [mul_comm]
    linarith
  unfold halfEvenDiv
  generalize hq : m / D = q at *
  generalize hr : m % D = r at *
  have hdm2 : ((q + 1 : Nat) : Int) * (D : Int) = (m : Int) - (r : Int) + D := by
    push_cast
    linarith [hdm]
  split_ifs with h1 h2 h3
  · rw [hdm]
    refine ⟨by omega, by omega, fun hc => by omega⟩
  · rw [hdm2]
    refine ⟨by omega, by omega, fun hc => by omega⟩
  · rw [hdm]
    refine ⟨by omega, by omega, fun _ => h3⟩
  · rw [hdm2]
    refine ⟨by omega, by omega, fun _ => by omega⟩

/-- Half-to-even division of the mantissa realizes the mathematical
half-to-even rounding of `m / 10^(k+4)` at 4 fractional digits. -/
theorem isHalfEvenRound4_halfEvenDiv (m k : Nat) :
    isHalfEvenRound4 ((m : ℚ) / 10 ^ (k + 4)) ((halfEvenDiv m (10 ^ k) : Nat) : Int) := by
  have hDnat : 0 < 10 ^ k := Nat.pos_pow_of_pos k (by omega)
  have hD : (0 : ℚ) < ((10 ^ k : Nat) : ℚ) := by positivity
  obtain ⟨hb1, hb2, hb3⟩ := halfEvenDiv_bounds m (10 ^ k) hDnat
  set r : Int := ((halfEvenDiv m (10 ^ k) : Nat) : Int) with hrdef
  set X : Int := r * (10 ^ k : Nat) - m with hXdef
  have hv4 : ((m : ℚ) / 10 ^ (k + 4)) * 10 ^ 4 = (m : ℚ) / ((10 ^ k : Nat) : ℚ) := by
    rw [pow_add]
    push_cast
    field_simp
    ring
  have hx : (r : ℚ) - (m : ℚ) / ((10 ^ k : Nat) : ℚ) = (X : ℚ) / ((10 ^ k : Nat) : ℚ) := by
    rw [hXdef]
    push_cast
    field_simp
  constructor
  · rw [hv4, hx, abs_div, abs_of_pos hD,
      div_le_div_iff hD (by norm_num : (0 : ℚ) < 2)]
    have hXint : |X| * 2 ≤ 1 * ((10 ^ k : Nat) : Int) := by
      rcases abs_cases X with ⟨he, _⟩ | ⟨he, _⟩ <;> omega
    calc |(X : ℚ)| * 2 = ((|X| * 2 : Int) : ℚ) := by push_cast; ring
    _ ≤ ((1 * ((10 ^ k : Nat) : Int) : Int) : ℚ) := by exact_mod_cast hXint
    _ = 1 * ((10 ^ k : Nat) : ℚ) := by push_cast; ring
  · intro htie
    rw [hv4, hx, abs_div, abs_of_pos hD,
      div_eq_div_iff (ne_of_gt hD) (by norm_num : (2 : ℚ) ≠ 0)] at htie
    have habs : |X| * 2 = 1 * ((10 ^ k : Nat) : Int) := by
      have : ((|X| * 2 : Int) : ℚ) = ((1 * ((10 ^ k : Nat) : Int) : Int) : ℚ) := by
        push_cast
        push_cast at htie
        linarith
      exact_mod_cast this
    have hpar : halfEvenDiv m (10 ^ k) % 2 = 0 := by
      apply hb3
      rcases abs_cases X with ⟨hc, _⟩ | ⟨hc, _⟩ <;> omega
    have hdvd : (2 : Nat) ∣ halfEvenDiv m (10 ^ k) := Nat.dvd_of_mod_eq_zero hpar
    rw [hrdef]
    exact_mod_cast hdvd

/-- Claim C9: a parsed textual decimal is rejected whenever its value is
negative, and a non-negative parse produces exactly the half-to-even rounding
of the value at 4 fractional digits (e.g. `1.03225` parses to `1.0322`, see
the witness). -/
theorem c9_parse_rounding (s : String) (d : RawDec) (hp : fromStrExact s = .ok d) :
    (d.value < 0 → ∃ msg, deserializeAmount s = .error msg) ∧
    (d.negSign = false →
      deserializeAmount s = .ok d.roundDp4.toScale4 ∧
      isHalfEvenRound4 d.value d.roundDp4.toScale4) := by
  constructor
  · intro hneg
    have hsign : d.negSign = true := by
      by_contra hfalse
      have hns : d.negSign = false := by simpa using hfalse
      have hone : (if (false : Bool) = true then (-1 : ℚ) else 1) = 1 := rfl
      rw [RawDec.value, hns, hone, one_mul] at hneg
      have h0 : (0 : ℚ) ≤ (d.mantissa : ℚ) / (10 : ℚ) ^ d.scale := by positivity
      linarith
    refine ⟨"expected a value greater than or equal to 0.0", ?_⟩
    simp [deserializeAmount, hp, roundDp4_negSign, hsign]
  · intro hns
    have h2 : d.roundDp4.negSign = false := by rw [roundDp4_negSign, hns]
    refine ⟨by simp [deserializeAmount, hp, h2], ?_⟩
    have hval : d.value = (d.mantissa : ℚ) / (10 : ℚ) ^ d.scale := by
      rw [RawDec.value, hns]
      simp
    rcases le_or_lt d.scale 4 with hsc | hsc
    · -- scale already at most 4: the value is exact
      have hround : d.roundDp4 = d := by
        unfold RawDec.roundDp4
        rw [if_pos hsc]
      have hts : d.toScale4 = (d.mantissa : Int) * 10 ^ (4 - d.scale) := by
        simp [RawDec.toScale4, hns]
      have heq : (((d.mantissa : Int) * 10 ^ (4 - d.scale) : Int) : ℚ) =
          (d.mantissa : ℚ) / (10 : ℚ) ^ d.scale * 10 ^ 4 := by
        have hpow : (10 : ℚ) ^ 4 = (10 : ℚ) ^ d.scale * (10 : ℚ) ^ (4 - d.scale) := by
          rw [← pow_add]
          congr 1
          omega
        push_cast
        rw [hpow]
        field_simp
        ring
      rw [hround, hts, hval]
      unfold isHalfEvenRound4
      rw [heq]
      constructor
      · norm_num
      · intro hc
        norm_num at hc
    · -- scale above 4: the mantissa is divided half-to-even
      obtain ⟨k, hk⟩ : ∃ k, d.scale = k + 4 := ⟨d.scale - 4, by omega⟩
      have hround : d.roundDp4 =
          { negSign := d.negSign, mantissa := halfEvenDiv d.mantissa (10 ^ k),
            scale := 4 } := by
        unfold RawDec.roundDp4
        rw [if_neg (by omega)]
        rw [hk]
        simp
      have hmain := isHalfEvenRound4_halfEvenDiv d.mantissa k
      rw [hval, hk, hround]
      simp only [RawDec.toScale4, hns]
      simpa using hmain

/-- Witness for C9 at the spec's own example `"1.03225"`: the string parses
exactly, is not rejected, and rounds half-to-even to `1.0322`. -/
theorem c9_witness :
    fromStrExact "1.03225" = .ok { negSign := false, mantissa := 103225, scale := 5 } ∧
    deserializeAmount "1.03225" = .ok 10322 ∧
    (deserializeAmount "1.03225" =
        .ok (RawDec.mk false 103225 5).roundDp4.toScale4 ∧
      isHalfEvenRound4 (RawDec.mk false 103225 5).value
        (RawDec.mk false 103225 5).roundDp4.toScale4) := by
  refine ⟨rfl, rfl, ?_⟩
  exact (c9_parse_rounding "1.03225" (RawDec.mk false 103225 5) rfl).2 rfl

/-! ### Client-map lemmas (for the engine proofs) -/

theorem mapLookup_cons (cid k : Nat) (c : Client) (t : ClientsMap) :
    mapLookup cid ((k, c) :: t) = if k = cid then some c else mapLookup cid t := by
  by_cases h : k = cid
  · simp [mapLookup, List.find?_cons_of_pos, h]
  · simp [mapLookup, List.find?_cons_of_neg, h]

theorem mapLookup_append_of_some {cid : Nat} {c : Client} {m : ClientsMap} (m' : ClientsMap)
    (h : mapLookup cid m = some c) : mapLookup cid (m ++ m') = some c := by
  induction m with
  | nil => simp [mapLookup] at h
  | cons p t ih =>
    obtain ⟨k, v⟩ := p
    rw [mapLookup_cons] at h
    by_cases hk : k = cid
    · simp [hk] at h
      simp [List.cons_append, mapLookup_cons, hk, h]
    · simp only [hk, if_false, ite_false, reduceIte] at h
      simp [List.cons_append, mapLookup_cons, hk, ih h]

theorem mapLookup_append_of_none {cid : Nat} {m : ClientsMap} (m' : ClientsMap)
    (h : mapLookup cid m = none) : mapLookup cid (m ++ m') = mapLookup cid m' := by
  induction m with
  | nil => simp
  | cons p t ih =>
    obtain ⟨k, v⟩ := p
    rw [mapLookup_cons] at h
    by_cases hk : k = cid
    · simp [hk] at h
    · simp only [hk, if_false, ite_false, reduceIte] at h
      simp [List.cons_append, mapLookup_cons, hk, ih h]

theorem getOrCreate_fst (cid : Nat) (m : ClientsMap) :
    (getOrCreate cid m).1 = initOf m cid := by
  unfold getOrCreate initOf
  cases mapLookup cid m <;> rfl

theorem getOrCreate_of_isSome {cid : Nat} {m : ClientsMap}
    (h : (mapLookup cid m).isSome) : getOrCreate cid m = (initOf m cid, m) := by
  unfold getOrCreate initOf
  cases hl : mapLookup cid m
  · rw [hl] at h
    simp at h
  · rfl

theorem getOrCreate_snd_lookup (cid cid' : Nat) (m : ClientsMap) :
    mapLookup cid' (getOrCreate cid m).2 =
      if cid' = cid then some (initOf m cid) else mapLookup cid' m := by
  unfold getOrCreate initOf
  cases hl : mapLookup cid m with
  | some c =>
    by_cases h : cid' = cid
    · subst h
      simp [hl]
    · simp [h]
  | none =>
    by_cases h : cid' = cid
    · subst h
      rw [mapLookup_append_of_none _ hl]
      simp [mapLookup_cons]
    · have h1 : mapLookup cid' (m ++ [(cid, Client.new cid)]) = mapLookup cid' m := by
        cases hl' : mapLookup cid' m with
        | some c' => rw [mapLookup_append_of_some _ hl']
        | none =>
          rw [mapLookup_append_of_none _ hl', mapLookup_cons,
            if_neg (fun hc : cid = cid' => h hc.symm)]
          rfl
      simp [h, h1]

theorem getOrCreate_snd_keys (cid : Nat) (m : ClientsMap) :
    (getOrCreate cid m).2.map Prod.fst =
      if (mapLookup cid m).isSome then m.map Prod.fst else m.map Prod.fst ++ [cid] := by
  unfold getOrCreate
  cases hl : mapLookup cid m <;> simp

theorem mapUpdate_keys (cid : Nat) (c : Client) (m : ClientsMap) :
    (mapUpdate cid c m).map Prod.fst = m.map Prod.fst := by
  unfold mapUpdate
  rw [List.map_map]
  apply List.map_congr_left
  intro p _
  by_cases h : p.1 = cid <;> simp [h]

theorem mapLookup_mapUpdate_self {cid : Nat} (c : Client) {m : ClientsMap}
    (h : (mapLookup cid m).isSome) :
    mapLookup cid (mapUpdate cid c m) = some c := by
  induction m with
  | nil => simp [mapLookup] at h
  | cons p t ih =>
    obtain ⟨k, v⟩ := p
    by_cases hk : k = cid
    · subst hk
      simp [mapUpdate, mapLookup_cons]
    · rw [mapLookup_cons] at h
      simp only [hk, if_false, ite_false, reduceIte] at h
      simpa [mapUpdate, mapLookup_cons, hk] using ih h

theorem mapLookup_mapUpdate_ne {cid cid' : Nat} (c : Client) (m : ClientsMap)
    (h : cid' ≠ cid) :
    mapLookup cid' (mapUpdate cid c m) = mapLookup cid' m := by
  induction m with
  | nil => rfl
  | cons p t ih =>
    obtain ⟨k, v⟩ := p
    by_cases hk : k = cid
    · subst hk
      have : ¬ k = cid' := fun hc => h hc.symm
      simpa [mapUpdate, mapLookup_cons, this] using ih
    · simp only [mapUpdate, List.map_cons, hk, if_false, ite_false, reduceIte]
      rw [mapLookup_cons, mapLookup_cons]
      by_cases hk' : k = cid'
      · simp [hk']
      · simpa [hk'] using ih

theorem initOf_nil (cid : Nat) : initOf [] cid = Client.new cid := rfl

theorem initOf_getOrCreate (cid cid' : Nat) (m : ClientsMap) :
    initOf (getOrCreate cid m).2 cid' =
      if cid' = cid then initOf m cid else initOf m cid' := by
  unfold initOf
  rw [getOrCreate_snd_lookup]
  by_cases h : cid' = cid <;> simp [h]
  rfl

theorem initOf_mapUpdate_self {cid : Nat} (c : Client) {m : ClientsMap}
    (h : (mapLookup cid m).isSome) : initOf (mapUpdate cid c m) cid = c := by
  unfold initOf
  rw [mapLookup_mapUpdate_self c h]
  rfl

theorem initOf_mapUpdate_ne {cid cid' : Nat} (c : Client) (m : ClientsMap)
    (h : cid' ≠ cid) : initOf (mapUpdate cid c m) cid' = initOf m cid' := by
  unfold initOf
  rw [mapLookup_mapUpdate_ne c m h]

theorem mem_keys_iff_lookup (cid : Nat) (m : ClientsMap) :
    cid ∈ m.map Prod.fst ↔ (mapLookup cid m).isSome := by
  induction m with
  | nil => simp [mapLookup]
  | cons p t ih =>
    obtain ⟨k, v⟩ := p
    rw [List.map_cons, List.mem_cons, mapLookup_cons]
    by_cases hk : k = cid
    · simp [hk]
    · have : ¬ cid = k := fun hc => hk hc.symm
      simp [hk, this, ih]

theorem getOrCreate_snd_lookup_isSome (cid : Nat) (m : ClientsMap) :
    (mapLookup cid (getOrCreate cid m).2).isSome := by
  rw [getOrCreate_snd_lookup]
  simp

theorem isLocked_initOf_isSome {m : ClientsMap} {cid : Nat}
    (h : (initOf m cid).isLocked = true) : (mapLookup cid m).isSome := by
  unfold initOf at h
  cases hl : mapLookup cid m
  · rw [hl] at h
    simp only [Option.getD_none] at h
    have hfalse : (Client.new cid).isLocked = false := rfl
    rw [hfalse] at h
    exact Bool.noConfusion h
  · simp

theorem nodup_keys_getOrCreate {m : ClientsMap} (cid : Nat)
    (h : (m.map Prod.fst).Nodup) : ((getOrCreate cid m).2.map Prod.fst).Nodup := by
  rw [getOrCreate_snd_keys]
  cases hl : mapLookup cid m with
  | some c => simpa using h
  | none =>
    have : cid ∉ m.map Prod.fst := by
      rw [mem_keys_iff_lookup, hl]
      simp
    simp [List.nodup_append, h, this]

theorem assoc_eta :
    ∀ (m : ClientsMap), (m.map Prod.fst).Nodup →
      m = (m.map Prod.fst).map (fun cid => (cid, initOf m cid))
  | [], _ => rfl
  | (k, c) :: t, h => by
    simp only [List.map_cons] at h ⊢
    obtain ⟨hk, ht⟩ := List.nodup_cons.mp h
    have hhead : initOf ((k, c) :: t) k = c := by
      unfold initOf
      rw [mapLookup_cons]
      simp
    have htail : (t.map Prod.fst).map (fun cid => (cid, initOf ((k, c) :: t) cid)) =
        (t.map Prod.fst).map (fun cid => (cid, initOf t cid)) := by
      apply List.map_congr_left
      intro cid hcid
      have hne : ¬ k = cid := fun hc => hk (hc ▸ hcid)
      unfold initOf
      rw [mapLookup_cons, if_neg hne]
    rw [hhead, htail, ← assoc_eta t ht]

/-! ### First-seen order and sharding permutations -/

theorem mem_seenAfter :
    ∀ (evs : List IncomingTransaction) (ks : List Nat) (cid : Nat),
      cid ∈ seenAfter ks evs ↔ cid ∈ ks ∨ ∃ t ∈ evs, t.client = cid
  | [], ks, cid => by simp [seenAfter]
  | t :: rest, ks, cid => by
    rw [seenAfter, mem_seenAfter rest _ cid]
    by_cases h : t.client ∈ ks
    · simp only [h, if_true]
      constructor
      · rintro (hc | hc)
        · exact Or.inl hc
        · exact Or.inr (by simpa using Or.inr hc)
      · rintro (hc | hc)
        · exact Or.inl hc
        · simp only [List.mem_cons] at hc
          obtain ⟨u, hu | hu, hcl⟩ := hc
          · subst hu
            rw [hcl] at h
            exact Or.inl h
          · exact Or.inr ⟨u, hu, hcl⟩
    · simp only [h, if_false, ite_false, reduceIte]
      constructor
      · rintro (hc | hc)
        · rcases List.mem_append.mp hc with hc' | hc'
          · exact Or.inl hc'
          · simp only [List.mem_singleton] at hc'
            exact Or.inr ⟨t, by simp, hc'.symm⟩
        · exact Or.inr (by simpa using Or.inr hc)
      · rintro (hc | hc)
        · exact Or.inl (List.mem_append.mpr (Or.inl hc))
        · simp only [List.mem_cons] at hc
          obtain ⟨u, hu | hu, hcl⟩ := hc
          · subst hu
            exact Or.inl (List.mem_append.mpr (Or.inr (by simp [hcl])))
          · exact Or.inr ⟨u, hu, hcl⟩

theorem seenAfter_filter (q : Nat → Bool) :
    ∀ (evs : List IncomingTransaction) (ks : List Nat),
      (seenAfter ks evs).filter q =
        seenAfter (ks.filter q) (evs.filter (fun t => q t.client))
  | [], ks => rfl
  | t :: rest, ks => by
    have hstep : seenAfter ks (t :: rest) =
        seenAfter (if t.client ∈ ks then ks else ks ++ [t.client]) rest := rfl
    cases hq : q t.client with
    | true =>
      have hacc : (if t.client ∈ ks then ks else ks ++ [t.client]).filter q =
          if t.client ∈ ks.filter q then ks.filter q else ks.filter q ++ [t.client] := by
        by_cases h : t.client ∈ ks
        · rw [if_pos h, if_pos (List.mem_filter.mpr ⟨h, hq⟩)]
        · rw [if_neg h, if_neg (fun hc => h (List.mem_filter.mp hc).1),
            List.filter_append]
          simp [hq]
      have hfc : (t :: rest).filter (fun u => q u.client) =
          t :: rest.filter (fun u => q u.client) := by
        simp [List.filter_cons, hq]
      have hstep2 : seenAfter (ks.filter q) (t :: rest.filter (fun u => q u.client)) =
          seenAfter (if t.client ∈ ks.filter q then ks.filter q
            else ks.filter q ++ [t.client]) (rest.filter (fun u => q u.client)) := rfl
      rw [hstep, seenAfter_filter q rest, hacc, hfc, hstep2]
    | false =>
      have hacc : (if t.client ∈ ks then ks else ks ++ [t.client]).filter q =
          ks.filter q := by
        by_cases h : t.client ∈ ks
        · rw [if_pos h]
        · rw [if_neg h, List.filter_append]
          simp [hq]
      have hfc : (t :: rest).filter (fun u => q u.client) =
          rest.filter (fun u => q u.client) := by
        simp [List.filter_cons, hq]
      rw [hstep, seenAfter_filter q rest, hacc, hfc]

theorem rangeSumSingle :
    ∀ (n k C : Nat), k < n →
      ((List.range n).map (fun w => if k = w then C else 0)).sum = C
  | 0, _, _, h => absurd h (by omega)
  | n + 1, k, C, h => by
    rw [List.range_succ, List.map_append, List.sum_append]
    by_cases hk : k = n
    · subst hk
      have hzero : ((List.range k).map (fun w => if k = w then C else 0)).sum = 0 := by
        apply List.sum_eq_zero
        intro x hx
        obtain ⟨w, hw, rfl⟩ := List.mem_map.mp hx
        have : k ≠ w := by
          have := List.mem_range.mp hw
          omega
        simp [this]
      simp [hzero]
    · have hlt : k < n := by omega
      rw [rangeSumSingle n k C hlt]
      simp [hk]

/-- Splitting a list of client ids into its `W` residue classes and
concatenating them is a permutation of the list. -/
theorem modJoinPerm (W : Nat) (hW : 0 < W) (l : List Nat) :
    (((List.range W).map (fun w => l.filter (fun c => c % W = w))).flatten).Perm l := by
  rw [List.perm_iff_count]
  intro a
  rw [List.count_flatten, List.map_map]
  have hcount : ∀ w ∈ List.range W,
      (List.count a ∘ fun w => l.filter (fun c => c % W = w)) w =
        (fun w => if a % W = w then List.count a l else 0) w := by
    intro w _
    simp only [Function.comp]
    by_cases h : a % W = w
    · rw [List.count_filter (by simpa using h)]
      simp [h]
    · rw [if_neg h]
      rw [List.count_eq_zero]
      intro hmem
      exact h (by simpa using (List.mem_filter.mp hmem).2)
  rw [List.map_congr_left hcount]
  exact rangeSumSingle W (a % W) _ (Nat.mod_lt _ hW)

/-! ### Per-client projection of the synchronous engine -/

theorem hasTag_false (e : PubErr) : e.hasFrozenAccountTag = false := rfl

theorem clientEvents_cons (cid : Nat) (t : IncomingTransaction)
    (rest : List IncomingTransaction) :
    clientEvents cid (t :: rest) =
      if t.client = cid then t :: clientEvents cid rest else clientEvents cid rest := by
  by_cases h : t.client = cid <;> simp [clientEvents, List.filter_cons, h]

theorem clientFoldSkip_locked {c : Client} (h : c.isLocked = true) :
    ∀ l : List IncomingTransaction, clientFoldSkip c l = c
  | [] => rfl
  | t :: rest => by
    simp only [clientFoldSkip, h, if_true]
    exact clientFoldSkip_locked h rest

theorem syncClientRun_locked {c : Client} (h : c.isLocked = true) :
    ∀ l : List IncomingTransaction, syncClientRun c l = .ok c
  | [] => rfl
  | t :: rest => by
    simp only [syncClientRun, h, if_true]
    exact syncClientRun_locked h rest

/-- The actor-like task computes exactly the synchronous per-client state
whenever the per-client run succeeds. -/
theorem taskRun_eq_of_run_ok :
    ∀ {l : List IncomingTransaction} {c c' : Client},
      syncClientRun c l = .ok c' → taskRun c l = c'
  | [], c, c', h => by
    simp only [syncClientRun] at h
    cases h
    rfl
  | t :: rest, c, c', h => by
    by_cases hlk : c.isLocked
    · rw [syncClientRun_locked hlk] at h
      cases h
      simp only [taskRun]
      rw [publishTransaction_frozen (isLocked_eq_true_iff.mp hlk)]
    · simp only [syncClientRun, hlk, if_false, ite_false, reduceIte] at h
      cases hout : (c.publishTransaction t.tx t.ty t.amount).1 with
      | ok u =>
        simp only [hout] at h
        simp only [taskRun, hout]
        exact taskRun_eq_of_run_ok h
      | error e =>
        simp only [hout, hasTag_false] at h
        simp at h

theorem syncPublish_locked {m : ClientsMap} {t : IncomingTransaction}
    (h : (initOf m t.client).isLocked = true) :
    syncPublish m t = .ok m := by
  have hsome := isLocked_initOf_isSome h
  simp only [syncPublish, getOrCreate_fst]
  rw [if_pos h, getOrCreate_of_isSome hsome]

theorem syncPublish_not_locked_ok {m : ClientsMap} {t : IncomingTransaction} {u : Unit}
    (hlk : (initOf m t.client).isLocked = false)
    (hout : ((initOf m t.client).publishTransaction t.tx t.ty t.amount).1 = .ok u) :
    syncPublish m t = .ok (mapUpdate t.client
      ((initOf m t.client).publishTransaction t.tx t.ty t.amount).2
      (getOrCreate t.client m).2) := by
  simp only [syncPublish, getOrCreate_fst, hlk, hout]
  simp

theorem syncPublish_not_locked_err {m : ClientsMap} {t : IncomingTransaction} {e : PubErr}
    (hlk : (initOf m t.client).isLocked = false)
    (hout : ((initOf m t.client).publishTransaction t.tx t.ty t.amount).1 = .error e) :
    syncPublish m t = .error e := by
  simp only [syncPublish, getOrCreate_fst, hlk, hout, hasTag_false]
  simp

/-- A successful synchronous run projects, client by client, onto successful
per-client runs computing `clientFoldSkip`. -/
theorem syncProcess_clientRun_ok :
    ∀ (evs : List IncomingTransaction) (m₀ m : ClientsMap),
      syncProcess evs m₀ = .ok m → ∀ cid : Nat,
        syncClientRun (initOf m₀ cid) (clientEvents cid evs) =
          .ok (clientFoldSkip (initOf m₀ cid) (clientEvents cid evs))
  | [], _, _, _, _ => rfl
  | t :: rest, m₀, m, h, cid => by
    cases hpub : syncPublish m₀ t with
    | error e =>
      simp only [syncProcess, hpub] at h
      exact Except.noConfusion h
    | ok m' =>
      simp only [syncProcess, hpub] at h
      by_cases hlk : (initOf m₀ t.client).isLocked
      · have hml : m' = m₀ := by
          have hsp := syncPublish_locked hlk
          rw [hsp] at hpub
          cases hpub
          rfl
        subst hml
        have ih := syncProcess_clientRun_ok rest m' m h
        by_cases hc : t.client = cid
        · subst hc
          rw [clientEvents_cons, if_pos rfl]
          have e1 : syncClientRun (initOf m' t.client) (t :: clientEvents t.client rest) =
              syncClientRun (initOf m' t.client) (clientEvents t.client rest) := by
            simp only [syncClientRun, if_pos hlk]
          have e2 : clientFoldSkip (initOf m' t.client) (t :: clientEvents t.client rest) =
              clientFoldSkip (initOf m' t.client) (clientEvents t.client rest) := by
            simp only [clientFoldSkip, if_pos hlk]
          rw [e1, e2]
          exact ih t.client
        · rw [clientEvents_cons, if_neg hc]
          exact ih cid
      · have hlkf : (initOf m₀ t.client).isLocked = false := by simpa using hlk
        cases hout : ((initOf m₀ t.client).publishTransaction t.tx t.ty t.amount).1 with
        | error e =>
          rw [syncPublish_not_locked_err hlkf hout] at hpub
          cases hpub
        | ok u =>
          rw [syncPublish_not_locked_ok hlkf hout] at hpub
          cases hpub
          have ih := syncProcess_clientRun_ok rest _ m h
          by_cases hc : t.client = cid
          · subst hc
            rw [clientEvents_cons, if_pos rfl]
            have e1 : syncClientRun (initOf m₀ t.client) (t :: clientEvents t.client rest) =
                syncClientRun ((initOf m₀ t.client).publishTransaction t.tx t.ty t.amount).2
                  (clientEvents t.client rest) := by
              simp only [syncClientRun, if_neg hlk, hout]
            have e2 : clientFoldSkip (initOf m₀ t.client) (t :: clientEvents t.client rest) =
                clientFoldSkip ((initOf m₀ t.client).publishTransaction t.tx t.ty t.amount).2
                  (clientEvents t.client rest) := by
              simp only [clientFoldSkip, if_neg hlk]
            rw [e1, e2]
            have hi := ih t.client
            rw [initOf_mapUpdate_self _ (getOrCreate_snd_lookup_isSome _ _)] at hi
            exact hi
          · rw [clientEvents_cons, if_neg hc]
            have hi := ih cid
            rw [initOf_mapUpdate_ne _ _ (fun hcc => hc hcc.symm), initOf_getOrCreate,
              if_neg (fun hcc => hc hcc.symm)] at hi
            exact hi

/-- Conversely, when every per-client run succeeds, the synchronous engine
succeeds. -/
theorem syncProcess_ok_of_clientRun_ok :
    ∀ (evs : List IncomingTransaction) (m₀ : ClientsMap),
      (∀ cid, ∃ c', syncClientRun (initOf m₀ cid) (clientEvents cid evs) = .ok c') →
      ∃ m, syncProcess evs m₀ = .ok m
  | [], m₀, _ => ⟨m₀, rfl⟩
  | t :: rest, m₀, hall => by
    by_cases hlk : (initOf m₀ t.client).isLocked
    · have hall' : ∀ cid, ∃ c',
          syncClientRun (initOf m₀ cid) (clientEvents cid rest) = .ok c' := by
        intro cid
        by_cases hc : t.client = cid
        · subst hc
          obtain ⟨c', hc'⟩ := hall t.client
          rw [clientEvents_cons, if_pos rfl] at hc'
          simp only [syncClientRun, if_pos hlk] at hc'
          exact ⟨c', hc'⟩
        · obtain ⟨c', hc'⟩ := hall cid
          rw [clientEvents_cons, if_neg hc] at hc'
          exact ⟨c', hc'⟩
      obtain ⟨m, hm⟩ := syncProcess_ok_of_clientRun_ok rest m₀ hall'
      refine ⟨m, ?_⟩
      simp only [syncProcess, syncPublish_locked hlk]
      exact hm
    · have hlkf : (initOf m₀ t.client).isLocked = false := by simpa using hlk
      cases hout : ((initOf m₀ t.client).publishTransaction t.tx t.ty t.amount).1 with
      | error e =>
        exfalso
        obtain ⟨c', hc'⟩ := hall t.client
        rw [clientEvents_cons, if_pos rfl] at hc'
        simp only [syncClientRun, if_neg hlk, hout, hasTag_false] at hc'
        simp at hc'
      | ok u =>
        have hall' : ∀ cid, ∃ c',
            syncClientRun (initOf (mapUpdate t.client
              ((initOf m₀ t.client).publishTransaction t.tx t.ty t.amount).2
              (getOrCreate t.client m₀).2) cid) (clientEvents cid rest) = .ok c' := by
          intro cid
          by_cases hc : t.client = cid
          · subst hc
            obtain ⟨c', hc'⟩ := hall t.client
            rw [clientEvents_cons, if_pos rfl] at hc'
            simp only [syncClientRun, if_neg hlk, hout] at hc'
            rw [initOf_mapUpdate_self _ (getOrCreate_snd_lookup_isSome _ _)]
            exact ⟨c', hc'⟩
          · obtain ⟨c', hc'⟩ := hall cid
            rw [clientEvents_cons, if_neg hc] at hc'
            rw [initOf_mapUpdate_ne _ _ (fun hcc => hc hcc.symm), initOf_getOrCreate,
              if_neg (fun hcc => hc hcc.symm)]
            exact ⟨c', hc'⟩
        obtain ⟨m, hm⟩ := syncProcess_ok_of_clientRun_ok rest _ hall'
        refine ⟨m, ?_⟩
        simp only [syncProcess, syncPublish_not_locked_ok hlkf hout]
        exact hm

/-- The final map of a successful synchronous run: one entry per client in
first-seen order, holding the per-client fold of that client's events. -/
theorem syncProcess_shape :
    ∀ (evs : List IncomingTransaction) (m₀ m : ClientsMap),
      (m₀.map Prod.fst).Nodup → syncProcess evs m₀ = .ok m →
      m = (seenAfter (m₀.map Prod.fst) evs).map
            (fun cid => (cid, clientFoldSkip (initOf m₀ cid) (clientEvents cid evs)))
  | [], m₀, m, hnd, h => by
    simp only [syncProcess] at h
    cases h
    exact assoc_eta m₀ hnd
  | t :: rest, m₀, m, hnd, h => by
    cases hpub : syncPublish m₀ t with
    | error e =>
      simp only [syncProcess, hpub] at h
      exact Except.noConfusion h
    | ok m' =>
      simp only [syncProcess, hpub] at h
      by_cases hlk : (initOf m₀ t.client).isLocked
      · have hml : m' = m₀ := by
          have hsp := syncPublish_locked hlk
          rw [hsp] at hpub
          cases hpub
          rfl
        subst hml
        have hmem : t.client ∈ m'.map Prod.fst :=
          (mem_keys_iff_lookup _ _).mpr (isLocked_initOf_isSome hlk)
        have ih := syncProcess_shape rest m' m hnd h
        rw [ih]
        have hseen : seenAfter (m'.map Prod.fst) (t :: rest) =
            seenAfter (m'.map Prod.fst) rest := by
          simp only [seenAfter, if_pos hmem]
        rw [hseen]
        apply List.map_congr_left
        intro cid _
        by_cases hc : t.client = cid
        · subst hc
          rw [clientEvents_cons, if_pos rfl]
          have e2 : clientFoldSkip (initOf m' t.client) (t :: clientEvents t.client rest) =
              clientFoldSkip (initOf m' t.client) (clientEvents t.client rest) := by
            simp only [clientFoldSkip, if_pos hlk]
          rw [e2]
        · rw [clientEvents_cons, if_neg hc]
      · have hlkf : (initOf m₀ t.client).isLocked = false := by simpa using hlk
        cases hout : ((initOf m₀ t.client).publishTransaction t.tx t.ty t.amount).1 with
        | error e =>
          rw [syncPublish_not_locked_err hlkf hout] at hpub
          cases hpub
        | ok u =>
          rw [syncPublish_not_locked_ok hlkf hout] at hpub
          cases hpub
          have hnd' : ((mapUpdate t.client
              ((initOf m₀ t.client).publishTransaction t.tx t.ty t.amount).2
              (getOrCreate t.client m₀).2).map Prod.fst).Nodup := by
            rw [mapUpdate_keys]
            exact nodup_keys_getOrCreate _ hnd
          have ih := syncProcess_shape rest _ m hnd' h
          rw [ih]
          have hkeys : ((mapUpdate t.client
              ((initOf m₀ t.client).publishTransaction t.tx t.ty t.amount).2
              (getOrCreate t.client m₀).2).map Prod.fst) =
              if t.client ∈ m₀.map Prod.fst then m₀.map Prod.fst
                else m₀.map Prod.fst ++ [t.client] := by
            rw [mapUpdate_keys, getOrCreate_snd_keys]
            by_cases hs : (mapLookup t.client m₀).isSome
            · rw [if_pos hs, if_pos ((mem_keys_iff_lookup _ _).mpr hs)]
            · rw [if_neg hs, if_neg (fun hm => hs ((mem_keys_iff_lookup _ _).mp hm))]
          have hseen : seenAfter (m₀.map Prod.fst) (t :: rest) =
              seenAfter ((mapUpdate t.client
                ((initOf m₀ t.client).publishTransaction t.tx t.ty t.amount).2
                (getOrCreate t.client m₀).2).map Prod.fst) rest := by
            rw [hkeys]
            rfl
          rw [hseen]
          apply List.map_congr_left
          intro cid _
          by_cases hc : t.client = cid
          · subst hc
            rw [clientEvents_cons, if_pos rfl]
            rw [initOf_mapUpdate_self _ (getOrCreate_snd_lookup_isSome _ _)]
            have e2 : clientFoldSkip (initOf m₀ t.client) (t :: clientEvents t.client rest) =
                clientFoldSkip ((initOf m₀ t.client).publishTransaction t.tx t.ty t.amount).2
                  (clientEvents t.client rest) := by
              simp only [clientFoldSkip, if_neg hlk]
            rw [e2]
          · rw [clientEvents_cons, if_neg hc,
              initOf_mapUpdate_ne _ _ (fun hcc => hc hcc.symm), initOf_getOrCreate,
              if_neg (fun hcc => hc hcc.symm)]

/-! ### Claim C2: the three engine flavours -/

theorem clientEvents_shard (cid W w : Nat) (evs : List IncomingTransaction)
    (h : cid % W = w) :
    clientEvents cid (shardEvents W w evs) = clientEvents cid evs := by
  unfold clientEvents shardEvents
  induction evs with
  | nil => rfl
  | cons t rest ih =>
    by_cases htc : t.client = cid
    · have ht : t.client % W = w := by rw [htc, h]
      simp [List.filter_cons, htc, ht, ih, h]
    · by_cases ht : t.client % W = w <;> simp [List.filter_cons, htc, ht, ih]

theorem clientEvents_shard_ne (cid W w : Nat) (evs : List IncomingTransaction)
    (h : ¬ cid % W = w) :
    clientEvents cid (shardEvents W w evs) = [] := by
  unfold clientEvents shardEvents
  induction evs with
  | nil => rfl
  | cons t rest ih =>
    by_cases htc : t.client = cid
    · have ht : ¬ t.client % W = w := by rw [htc]; exact h
      simp [List.filter_cons, htc, ht, ih, h]
    · by_cases ht : t.client % W = w <;> simp [List.filter_cons, htc, ht, ih]

/-- When the synchronous engine succeeds, the actor-like engine produces the
very same rows (even in the same first-seen order). -/
theorem actorRun_eq (evs : List IncomingTransaction) (m : ClientsMap)
    (h : syncProcess evs [] = .ok m) : actorRun evs = syncRows m := by
  have hshape := syncProcess_shape evs [] m (by simp) h
  have hrun := syncProcess_clientRun_ok evs [] m h
  rw [hshape]
  unfold actorRun actorClients syncRows
  rw [List.map_map]
  apply List.map_congr_left
  intro cid _
  simp only [Function.comp]
  congr 1
  rw [initOf_nil]
  have hr := hrun cid
  rw [initOf_nil] at hr
  exact taskRun_eq_of_run_ok hr

/-- When the synchronous engine succeeds, the stream-like engine with any
positive worker count produces its rows up to permutation. -/
theorem streamRun_perm (evs : List IncomingTransaction) (W : Nat) (m : ClientsMap)
    (hW : 0 < W) (h : syncProcess evs [] = .ok m) :
    (streamRun W evs).Perm (syncRows m) := by
  have hrun := syncProcess_clientRun_ok evs [] m h
  have hrows : syncRows m = (actorClients evs).map
      (fun cid => clientRow (clientFoldSkip (Client.new cid) (clientEvents cid evs))) := by
    rw [syncProcess_shape evs [] m (by simp) h]
    unfold syncRows actorClients
    rw [List.map_map]
    apply List.map_congr_left
    intro cid _
    simp only [Function.comp]
    rw [initOf_nil]
  have hworker : ∀ w, (match syncProcess (shardEvents W w evs) [] with
      | .ok mw => syncRows mw
      | .error _ => ([] : List Row)) =
      ((actorClients evs).filter (fun c => c % W = w)).map
        (fun cid => clientRow (clientFoldSkip (Client.new cid) (clientEvents cid evs))) := by
    intro w
    have hok : ∃ mw, syncProcess (shardEvents W w evs) [] = .ok mw := by
      apply syncProcess_ok_of_clientRun_ok
      intro cid
      by_cases hcw : cid % W = w
      · rw [initOf_nil, clientEvents_shard cid W w evs hcw]
        have hr := hrun cid
        rw [initOf_nil] at hr
        exact ⟨_, hr⟩
      · rw [initOf_nil, clientEvents_shard_ne cid W w evs hcw]
        exact ⟨_, rfl⟩
    obtain ⟨mw, hmw⟩ := hok
    simp only [hmw]
    rw [syncProcess_shape (shardEvents W w evs) [] mw (by simp) hmw]
    unfold syncRows
    rw [List.map_map]
    have hseenw : seenAfter (([] : ClientsMap).map Prod.fst) (shardEvents W w evs) =
        (actorClients evs).filter (fun c => c % W = w) := by
      unfold actorClients shardEvents
      exact (seenAfter_filter (fun c => c % W = w) evs []).symm
    rw [hseenw]
    apply List.map_congr_left
    intro cid hcid
    have hcw : cid % W = w := by simpa using (List.mem_filter.mp hcid).2
    simp only [Function.comp]
    rw [initOf_nil, clientEvents_shard cid W w evs hcw]
  unfold streamRun
  rw [List.map_congr_left (fun w _ => hworker w)]
  rw [hrows]
  have hmm : ((List.range W).map (fun w =>
      ((actorClients evs).filter (fun c => c % W = w)).map
        (fun cid => clientRow (clientFoldSkip (Client.new cid) (clientEvents cid evs))))) =
      (((List.range W).map (fun w => (actorClients evs).filter (fun c => c % W = w))).map
        (List.map (fun cid => clientRow (clientFoldSkip (Client.new cid)
          (clientEvents cid evs))))) := by
    rw [List.map_map]
    rfl
  rw [hmm, ← List.map_flatten]
  exact (modJoinPerm W hW (actorClients evs)).map _

/-- Claim C2, counterexample: on an input containing a duplicate deposit (an
anomaly the state machine ignores), the stream-like engine with one worker
drops the erroring worker's whole result and outputs no rows, while the
actor-like engine outputs rows for both clients — the engines do not produce
the same summary set on every input.  (The synchronous flavour aborts
`process` with the error on the same input.) -/
theorem c2_counterexample :
    ¬ (streamRun 1 c2CexEvents).Perm (actorRun c2CexEvents) := by
  decide

/-- Claim C2 (amended): on any input on which the synchronous engine's
`process` succeeds (no event errors on an unlocked account — the situation
the spec assumes, since it calls non-parse errors "never surfaced"), all
three flavours agree: the actor-like engine produces exactly the synchronous
rows, and the stream-like engine with any positive number of workers
produces them up to row order. -/
theorem c2_engines_agree (evs : List IncomingTransaction) (W : Nat) (m : ClientsMap)
    (hW : 0 < W) (h : syncProcess evs [] = .ok m) :
    actorRun evs = syncRows m ∧ (streamRun W evs).Perm (syncRows m) :=
  ⟨actorRun_eq evs m h, streamRun_perm evs W m hW h⟩

/-- Witness for C2's amended theorem on a three-event, two-client input with
two workers. -/
theorem c2_witness :
    (0 < 2) ∧ syncProcess c2OkEvents [] = .ok c2OkMap ∧
    (actorRun c2OkEvents = syncRows c2OkMap ∧
      (streamRun 2 c2OkEvents).Perm (syncRows c2OkMap)) :=
  ⟨by decide, rfl, c2_engines_agree c2OkEvents 2 c2OkMap (by decide) rfl⟩

end Trx
